import Mathlib

/-!
Verification development for the comment-removal core of `clean_comment.py`.

The embedding models the pure transformation
`process_code_content(content, file_extension, remove_all_comments_flag)`
and its worker `_remove_comments_universal(content, lang_def, remove_all)`.
Text is modelled as `List Char`.  Each regular expression appearing in the
source is a fixed concrete pattern; its `re.match` / `re.fullmatch` / `re.sub`
behaviour on the strings the program feeds it (single lines, which are free of
the newline character because they come from `content.split('\n')`) is encoded
directly as an executable function, derived from the anchored, greedy/lazy
semantics of that concrete pattern.
-/

namespace CleanComment

/-- Whitespace characters stripped by Python `str.strip()` / `str.rstrip()`
(ASCII range, which is what the source files use). -/
def wsChars : List Char := [' ', '\t', '\n', '\r', Char.ofNat 11, Char.ofNat 12]

/-- Test for a Python whitespace character. -/
def isWs (c : Char) : Bool := wsChars.contains c

/-- Python `str.lstrip()`. -/
def lstrip (s : List Char) : List Char := s.dropWhile isWs

/-- Python `str.rstrip()`. -/
def rstrip (s : List Char) : List Char := (s.reverse.dropWhile isWs).reverse

/-- Python `str.strip()`. -/
def strip (s : List Char) : List Char := rstrip (lstrip s)

/-- Removal of trailing spaces and tabs only: the effect of a trailing
`[ \t]*` group in an anchored pattern. -/
def rstripST (s : List Char) : List Char :=
  (s.reverse.dropWhile (fun c => c = ' ' || c = '\t')).reverse

/-- Python `str.rstrip('\n')`: drop all trailing newline characters. -/
def rstripNl (s : List Char) : List Char :=
  (s.reverse.dropWhile (fun c => c = '\n')).reverse

/-- Python `s.endswith('\n')`. -/
def endsNl (s : List Char) : Bool := s.getLast? = some '\n'

/-- Python `content.split('\n')`. -/
def splitNl : List Char → List (List Char)
  | [] => [[]]
  | c :: rest =>
    if c = '\n' then [] :: splitNl rest
    else (c :: (splitNl rest).headI) :: (splitNl rest).tail

/-- Python `'\n'.join(lines)`. -/
def joinNl : List (List Char) → List Char
  | [] => []
  | [l] => l
  | l :: l' :: ls => l ++ '\n' :: joinNl (l' :: ls)

/-- First index at which `pat` occurs as a contiguous substring of `s`
(the position found by an unanchored leftmost regex search for a literal). -/
def findSub? (pat s : List Char) : Option Nat :=
  (List.range (s.length + 1)).find? (fun i => pat.isPrefixOf (s.drop i))

/-- Index of the first character of `s` satisfying `p`. -/
def firstIdx (p : Char → Bool) : List Char → Option Nat
  | [] => none
  | c :: cs => if p c then some 0 else (firstIdx p cs).map (· + 1)

/-- Inline comment patterns of the source.  Every inline pattern in
`COMMENT_DEFINITIONS` has the shape `(^[^E\n]*)([ \t]+ MARKER ...$)` where
`E` is a set of excluded characters and the marker part is either a line
marker `m[^\n]*$` (comment runs to end of line) or a bracketed form
`op .*? cl [ \t]*$` (comment closed before end of line). -/
inductive InlinePat where
  | marker (excl : List Char) (m : List Char)
  | blockInl (excl : List Char) (op cl : List Char)
deriving DecidableEq, Repr

/-- Excluded-character set of an inline pattern (the class `[^E\n]` of its
first capture group). -/
def InlinePat.excl : InlinePat → List Char
  | .marker e _ => e
  | .blockInl e _ _ => e

/-- Result of Python `re.match(pattern, line)` for an inline pattern on a
newline-free line: `some codePart` (the first capture group) if the pattern
matches, else `none`.

Derivation from the anchored pattern `(^[^E\n]*)([ \t]+ ... $)`: the marker
of the second group starts with a character of `E`, while the first group and
the `[ \t]+` run contain no character of `E`; hence the marker must start at
the first index `p` of `s` holding a character of `E`, the character at
`p - 1` must be a space or tab (the `[ \t]+` run ends exactly at `p`, and
greedily the capture group extends to `p - 1`), and the marker must occur
literally at `p`.  For the bracketed form, `cl` followed by `[ \t]*$` forces
`cl` to be a suffix of the line with trailing spaces/tabs removed, starting
no earlier than the end of `op`. -/
def matchInline (pat : InlinePat) (s : List Char) : Option (List Char) :=
  match firstIdx (fun c => pat.excl.contains c) s with
  | none => none
  | some p =>
    let before : Bool := (s.get? (p - 1) = some ' ' || s.get? (p - 1) = some '\t')
    match pat with
    | .marker _ m =>
      if 1 ≤ p ∧ before ∧ m.isPrefixOf (s.drop p) then some (s.take (p - 1)) else none
    | .blockInl _ op cl =>
      let t := rstripST s
      if 1 ≤ p ∧ before ∧ op.isPrefixOf (s.drop p) ∧ cl.isSuffixOf t ∧
          p + op.length + cl.length ≤ t.length
      then some (s.take (p - 1)) else none

/-- Full-line comment patterns of the source: `^\s*m.*$` (line marker) or
`^\s*op.*?cl\s*$` (bracketed form).  They are applied with `re.fullmatch`
to an already-stripped line, so the `\s*` groups must match the empty
string and the pattern reduces to conditions on the stripped text. -/
inductive FullPat where
  | starts (m : List Char)
  | blockLine (op cl : List Char)
deriving DecidableEq, Repr

/-- Result of Python `re.fullmatch(pattern, t)` for a full-line pattern on a
stripped, newline-free line `t`. -/
def matchFull (pat : FullPat) (t : List Char) : Bool :=
  match pat with
  | .starts m => m.isPrefixOf t
  | .blockLine op cl =>
    op.isPrefixOf t && cl.isSuffixOf t && decide (op.length + cl.length ≤ t.length)

/-- One entry of `COMMENT_DEFINITIONS`: inline patterns, full-line patterns
and the optional `block_dotall` pattern (given by its opening and closing
literals; the pattern is `op .*? cl` with DOTALL). -/
structure LangDef where
  inline : List InlinePat
  fullLine : List FullPat
  blockDotall : Option (List Char × List Char)
deriving DecidableEq, Repr

/-- Body of the source's inner `for pattern_str in lang_def.get('inline', [])`
loop for one pattern: on a match replace the line by the right-stripped code
part (in inline-only mode, only when the code part has non-whitespace
content). -/
def inlStep (removeAll : Bool) (cur : List Char) (pat : InlinePat) : List Char :=
  match matchInline pat cur with
  | none => cur
  | some code =>
    if removeAll then rstrip code
    else if strip code ≠ [] then rstrip code else cur

/-- One pass of the source's inner `for` loop: try each inline pattern in
order against the current state of the line. -/
def applyPats (removeAll : Bool) (pats : List InlinePat) (s : List Char) : List Char :=
  pats.foldl (inlStep removeAll) s

/-- Fuelled version of the source's `while previous_state_before_inline_loop
!= temp_line_for_inline` loop: repeat `applyPats` until a pass makes no
change. -/
def inlineLoop (removeAll : Bool) (pats : List InlinePat) : Nat → List Char → List Char
  | 0, s => s
  | fuel + 1, s =>
    let s' := applyPats removeAll pats s
    if s' = s then s else inlineLoop removeAll pats fuel s'

/-- The inline-stripping fixed point for one line.  A fuel of `s.length + 1`
always suffices because every line-changing pass strictly shortens the line
(proved below). -/
def stripInline (removeAll : Bool) (pats : List InlinePat) (s : List Char) : List Char :=
  inlineLoop removeAll pats (s.length + 1) s

/-- Per-line processing of the main `for line_text in lines` loop: in
remove-all mode a line whose stripped form fullmatches some full-line pattern
is replaced by the empty line; otherwise the inline fixed point is taken. -/
def procLine (ld : LangDef) (removeAll : Bool) (l : List Char) : List Char :=
  if removeAll && ld.fullLine.any (fun fp => matchFull fp (strip l)) then []
  else stripInline removeAll ld.inline l

/-- Stage 1 of the remove-all cleanup: normalize whitespace-only lines to
truly empty lines. -/
def stage1 (ls : List (List Char)) : List (List Char) :=
  ls.map (fun l => if strip l = [] then [] else l)

/-- Loop body of stage 2 of the remove-all cleanup: append a non-empty line
always, an empty line only when the output so far is empty or its last line
is non-empty. -/
def stage2Step (acc : List (List Char)) (l : List Char) : List (List Char) :=
  if l ≠ [] then acc ++ [l]
  else if acc = [] ∨ acc.getLast? ≠ some [] then acc ++ [[]]
  else acc

/-- Stage 2 of the remove-all cleanup: collapse runs of empty lines. -/
def stage2 (ls : List (List Char)) : List (List Char) :=
  ls.foldl stage2Step []

/-- Structural reformulation of stage 2, used for proofs: the flag records
whether the loop may currently emit an empty line (output so far is empty or
ends in a non-empty line). -/
def stage2Go (canNil : Bool) : List (List Char) → List (List Char)
  | [] => []
  | l :: ls =>
    if l ≠ [] then l :: stage2Go true ls
    else if canNil then [] :: stage2Go false ls
    else stage2Go false ls

/-- Absence of two consecutive empty lines. -/
def noAdjNil : List (List Char) → Bool
  | [] => true
  | [_] => true
  | a :: b :: t => !(a.isEmpty && b.isEmpty) && noAdjNil (b :: t)

/-- Helper for stage 3 run on the reversed line list: the source's
`while len(cleaned_stage2) > 1 and cleaned_stage2[-1] == "": pop()`. -/
def popTrailAux : List (List Char) → List (List Char)
  | [] => []
  | [x] => [x]
  | x :: y :: ys => if x = [] then popTrailAux (y :: ys) else x :: y :: ys

/-- Drop trailing empty lines while more than one line remains. -/
def popTrail (ls : List (List Char)) : List (List Char) :=
  (popTrailAux ls.reverse).reverse

/-- The full remove-all blank-line cleanup (stages 1-3 of the source):
normalize whitespace-only lines, collapse empty runs, then strip leading
empty lines and trailing empty lines (the latter only while more than one
line remains). -/
def blankCollapse (ls : List (List Char)) : List (List Char) :=
  popTrail ((stage2 (stage1 ls)).dropWhile (fun l => l = []))

/-- Python `re.sub(op + '.*?' + cl, '', s, flags=re.DOTALL)` for literal
open/close delimiters, with fuel for termination: repeatedly remove the
leftmost `op`, together with everything up to and including the nearest
following `cl`; stop when no `op` remains or the first `op` is unclosed. -/
def removeBlocksAux (op cl : List Char) : Nat → List Char → List Char
  | 0, s => s
  | fuel + 1, s =>
    match findSub? op s with
    | none => s
    | some i =>
      match findSub? cl (s.drop (i + op.length)) with
      | none => s
      | some j =>
        s.take i ++ removeBlocksAux op cl fuel (s.drop (i + op.length + j + cl.length))

/-- Block-comment removal over the whole buffer (stage 1 of the source,
remove-all mode only).  A fuel of `s.length + 1` suffices for the nonempty
delimiters used by every profile. -/
def removeBlocks (op cl : List Char) (s : List Char) : List Char :=
  removeBlocksAux op cl (s.length + 1) s

/-- Trailing-newline fidelity (the tail of `_remove_comments_universal`),
taking the original content, the final line list and their join. -/
def newlineFix (content : List Char) (resultLines : List (List Char))
    (final : List Char) : List Char :=
  if final = [] ∧ resultLines = [] ∧ content = ['\n'] then ['\n']
  else if final = [] ∧ resultLines = [] ∧ content = [] then []
  else if final ≠ [] then
    if endsNl content then (if endsNl final then final else final ++ ['\n'])
    else (if endsNl final then rstripNl final else final)
  else if endsNl content then ['\n']
  else final

/-- Stage 1 of the source (remove-all mode): apply the profile's block
pattern, when present, to the whole buffer. -/
def blockPass (ld : LangDef) (content : List Char) : List Char :=
  match ld.blockDotall with
  | some (op, cl) => removeBlocks op cl content
  | none => content

/-- The core transform `_remove_comments_universal(content, lang_def, remove_all)`. -/
def removeCommentsUniversal (ld : LangDef) (removeAll : Bool) (content : List Char) :
    List Char :=
  let processed := if removeAll then blockPass ld content else content
  let resultLines0 := (splitNl processed).map (procLine ld removeAll)
  let resultLines := if removeAll then blankCollapse resultLines0 else resultLines0
  newlineFix content resultLines (joinNl resultLines)

/-- First character of a full-line pattern's marker. -/
def fpHead : FullPat → Option Char
  | .starts m => m.head?
  | .blockLine op _ => op.head?

/-- Checks that a full-line pattern's marker starts with a character excluded
from the code group of the given inline pattern.  This holds for every
pattern pair of every profile in `COMMENT_DEFINITIONS` and is what makes the
inline stripper leave whole-line comments alone in inline-only mode. -/
def fpHeadOkB (ip : InlinePat) (fp : FullPat) : Bool :=
  match fpHead fp with
  | some hch => ip.excl.contains hch
  | none => false

/-- The `python_like` entry of `COMMENT_DEFINITIONS`. -/
def pythonLike : LangDef :=
  { inline := [.marker ['#'] ['#']]
    fullLine := [.starts ['#']]
    blockDotall := none }

/-- The `c_like` entry of `COMMENT_DEFINITIONS`. -/
def cLike : LangDef :=
  { inline := [.marker ['/'] ['/', '/'], .blockInl ['/'] ['/', '*'] ['*', '/']]
    fullLine := [.starts ['/', '/'], .blockLine ['/', '*'] ['*', '/']]
    blockDotall := some (['/', '*'], ['*', '/']) }

/-- The `c_like_line_only` entry of `COMMENT_DEFINITIONS`. -/
def cLikeLineOnly : LangDef :=
  { inline := [.marker ['/'] ['/', '/']]
    fullLine := [.starts ['/', '/']]
    blockDotall := none }

/-- The `xml_like` entry of `COMMENT_DEFINITIONS`. -/
def xmlLike : LangDef :=
  { inline := [.blockInl ['<'] ['<', '!', '-', '-'] ['-', '-', '>']]
    fullLine := [.blockLine ['<', '!', '-', '-'] ['-', '-', '>']]
    blockDotall := some (['<', '!', '-', '-'], ['-', '-', '>']) }

/-- The `css_like` entry of `COMMENT_DEFINITIONS`. -/
def cssLike : LangDef :=
  { inline := [.blockInl ['/'] ['/', '*'] ['*', '/']]
    fullLine := [.blockLine ['/', '*'] ['*', '/']]
    blockDotall := some (['/', '*'], ['*', '/']) }

/-- The `php_like` entry of `COMMENT_DEFINITIONS`. -/
def phpLike : LangDef :=
  { inline := [.marker ['/', '#'] ['/', '/'], .marker ['/', '#'] ['#'],
               .blockInl ['/', '#'] ['/', '*'] ['*', '/']]
    fullLine := [.starts ['/', '/'], .starts ['#'], .blockLine ['/', '*'] ['*', '/']]
    blockDotall := some (['/', '*'], ['*', '/']) }

/-- The `LANGUAGE_MAP` table: extension (lower-case, with leading dot) to
language definition. -/
def languageMap : List (List Char × LangDef) :=
  [(".py".data, pythonLike), (".sh".data, pythonLike), (".rb".data, pythonLike),
   (".yml".data, pythonLike), (".yaml".data, pythonLike),
   (".js".data, cLike), (".java".data, cLike), (".c".data, cLike), (".cpp".data, cLike),
   (".cs".data, cLike), (".kts".data, cLike), (".kt".data, cLike), (".swift".data, cLike),
   (".ts".data, cLike), (".jsx".data, cLike), (".tsx".data, cLike), (".json".data, cLike),
   (".go".data, cLikeLineOnly), (".rs".data, cLikeLineOnly),
   (".xml".data, xmlLike), (".html".data, xmlLike),
   (".css".data, cssLike),
   (".php".data, phpLike)]

/-- Python `str.lower()` on a single character (ASCII range, which covers
every extension the program compares against the table). -/
def lowerChar (c : Char) : Char :=
  if 'A' ≤ c ∧ c ≤ 'Z' then Char.ofNat (c.toNat + 32) else c

/-- Python `str.lower()`. -/
def lowerStr (s : List Char) : List Char := s.map lowerChar

/-- The wrapper `process_code_content(content, file_extension,
remove_all_comments_flag)`: look the lower-cased extension up in
`LANGUAGE_MAP`; on a miss return the content unchanged. -/
def processCodeContent (content : List Char) (fileExtension : List Char)
    (removeAll : Bool) : List Char :=
  match languageMap.lookup (lowerStr fileExtension) with
  | none => content
  | some ld => removeCommentsUniversal ld removeAll content

/-- The lines of a piece of text under the line-terminator convention
(Python `str.splitlines` restricted to the newline character): a trailing
newline terminates the last line instead of opening an empty one, and the
empty text has no lines. -/
def linesOf (s : List Char) : List (List Char) :=
  if s = [] then []
  else if endsNl s then splitNl s.dropLast
  else splitNl s

/-! Basic lemmas: prefixes, stripping, splitting and joining. -/

theorem preTrans {α : Type} {a b c : List α} (h1 : a <+: b) (h2 : b <+: c) : a <+: c := by
  obtain ⟨t1, rfl⟩ := h1
  obtain ⟨t2, rfl⟩ := h2
  exact ⟨t1 ++ t2, (List.append_assoc _ _ _).symm⟩

theorem preMem {α : Type} {a b : List α} (h : a <+: b) {x : α} (hx : x ∈ a) : x ∈ b := by
  obtain ⟨t, rfl⟩ := h
  exact List.mem_append_left _ hx

theorem preLen {α : Type} {a b : List α} (h : a <+: b) : a.length ≤ b.length := by
  obtain ⟨t, rfl⟩ := h
  simp

theorem preHead {α : Type} {a b : List α} (h : a <+: b) (ha : a ≠ []) :
    a.head? = b.head? := by
  obtain ⟨t, rfl⟩ := h
  cases a with
  | nil => exact absurd rfl ha
  | cons x xs => rfl

theorem takePre {α : Type} (n : Nat) (l : List α) : l.take n <+: l :=
  ⟨l.drop n, List.take_append_drop n l⟩

theorem revDropWhilePre (p : Char → Bool) (s : List Char) :
    (s.reverse.dropWhile p).reverse <+: s :=
  ⟨(s.reverse.takeWhile p).reverse, by
    rw [← List.reverse_append, List.takeWhile_append_dropWhile, List.reverse_reverse]⟩

theorem rstripPre (s : List Char) : rstrip s <+: s := revDropWhilePre _ s

theorem rstripSTPre (s : List Char) : rstripST s <+: s := revDropWhilePre _ s

theorem rstripNlPre (s : List Char) : rstripNl s <+: s := revDropWhilePre _ s

theorem rstrip_eq_nil {s : List Char} (h : rstrip s = []) : ∀ c ∈ s, isWs c := by
  intro c hc
  have h' : s.reverse.dropWhile isWs = [] := by
    have := congrArg List.reverse h
    simpa [rstrip] using this
  exact List.dropWhile_eq_nil_iff.mp h' c (List.mem_reverse.mpr hc)

theorem lstrip_eq_nil {s : List Char} (h : ∀ c ∈ s, isWs c) : lstrip s = [] :=
  List.dropWhile_eq_nil_iff.mpr h

theorem strip_ne_nil_rstrip {s : List Char} (h : strip s ≠ []) : rstrip s ≠ [] := by
  intro hr
  apply h
  have hall : ∀ c ∈ s, isWs c := rstrip_eq_nil hr
  have hl : lstrip s = [] := lstrip_eq_nil hall
  simp [strip, hl, rstrip]

theorem splitNl_nil : splitNl [] = [[]] := rfl

theorem splitNl_ne_nil (s : List Char) : splitNl s ≠ [] := by
  cases s with
  | nil => simp [splitNl]
  | cons c rest => by_cases h : c = '\n' <;> simp [splitNl, h]

theorem headI_cons_tail {l : List (List Char)} (h : l ≠ []) : l.headI :: l.tail = l := by
  cases l with
  | nil => exact absurd rfl h
  | cons a t => rfl

theorem splitNl_cons_nl (rest : List Char) : splitNl ('\n' :: rest) = [] :: splitNl rest := by
  simp [splitNl]

theorem splitNl_cons {c : Char} (rest : List Char) (h : ¬ c = '\n') :
    splitNl (c :: rest) = (c :: (splitNl rest).headI) :: (splitNl rest).tail := by
  simp [splitNl, h]

theorem splitNl_no_nl {s : List Char} : ∀ l ∈ splitNl s, '\n' ∉ l := by
  induction s with
  | nil => intro l hl; simp [splitNl] at hl; simp [hl]
  | cons c rest ih =>
    intro l hl
    by_cases h : c = '\n'
    · subst h
      rw [splitNl_cons_nl] at hl
      rcases List.mem_cons.mp hl with h1 | h1
      · simp [h1]
      · exact ih l h1
    · rw [splitNl_cons rest h] at hl
      rcases List.mem_cons.mp hl with h1 | h1
      · subst h1
        intro hmem
        rcases List.mem_cons.mp hmem with h2 | h2
        · exact h h2.symm
        · have hhead : (splitNl rest).headI ∈ splitNl rest := by
            have hne := splitNl_ne_nil rest
            cases hsp : splitNl rest with
            | nil => exact absurd hsp hne
            | cons a t => simp [hsp, List.headI]
          exact ih _ hhead h2
      · have : l ∈ splitNl rest := by
          have hne := splitNl_ne_nil rest
          cases hsp : splitNl rest with
          | nil => exact absurd hsp hne
          | cons a t =>
            rw [hsp] at h1
            exact hsp ▸ List.mem_cons_of_mem a h1
        exact ih l this

theorem splitNl_single {s : List Char} (h : '\n' ∉ s) : splitNl s = [s] := by
  induction s with
  | nil => rfl
  | cons c rest ih =>
    have hc : ¬ c = '\n' := fun hc => h (hc ▸ List.mem_cons_self c rest)
    have hr : '\n' ∉ rest := fun hm => h (List.mem_cons_of_mem c hm)
    rw [splitNl_cons rest hc, ih hr]
    rfl

theorem splitNl_append {a : List Char} (b : List Char) (h : '\n' ∉ a) :
    splitNl (a ++ b) = (a ++ (splitNl b).headI) :: (splitNl b).tail := by
  induction a with
  | nil => simpa using (headI_cons_tail (splitNl_ne_nil b)).symm
  | cons c a' ih =>
    have hc : ¬ c = '\n' := fun hc => h (hc ▸ List.mem_cons_self c a')
    have ha : '\n' ∉ a' := fun hm => h (List.mem_cons_of_mem c hm)
    rw [List.cons_append, splitNl_cons (a' ++ b) hc, ih ha]
    rfl

theorem splitNl_append_nl {a : List Char} (b : List Char) (h : '\n' ∉ a) :
    splitNl (a ++ '\n' :: b) = a :: splitNl b := by
  rw [splitNl_append ('\n' :: b) h, splitNl_cons_nl]
  simp [List.headI]

theorem joinNl_cons₂ (x y : List Char) (ys : List (List Char)) :
    joinNl (x :: y :: ys) = x ++ '\n' :: joinNl (y :: ys) := rfl

theorem splitNl_joinNl {ls : List (List Char)} (h : ∀ l ∈ ls, '\n' ∉ l) (hne : ls ≠ []) :
    splitNl (joinNl ls) = ls := by
  induction ls with
  | nil => exact absurd rfl hne
  | cons x t ih =>
    cases t with
    | nil => exact splitNl_single (h x (List.mem_cons_self _ _))
    | cons y ys =>
      rw [joinNl_cons₂]
      rw [splitNl_append_nl (joinNl (y :: ys)) (h x (List.mem_cons_self _ _))]
      rw [ih (fun l hl => h l (List.mem_cons_of_mem x hl)) (by simp)]

theorem joinNl_splitNl (c : List Char) : joinNl (splitNl c) = c := by
  induction c with
  | nil => rfl
  | cons ch rest ih =>
    by_cases h : ch = '\n'
    · subst h
      rw [splitNl_cons_nl]
      cases hsp : splitNl rest with
      | nil => exact absurd hsp (splitNl_ne_nil rest)
      | cons l ls =>
        rw [joinNl_cons₂]
        rw [hsp] at ih
        simp [ih]
    · rw [splitNl_cons rest h]
      cases hsp : splitNl rest with
      | nil => exact absurd hsp (splitNl_ne_nil rest)
      | cons l ls =>
        rw [hsp] at ih
        cases ls with
        | nil =>
          simp [List.headI, joinNl] at ih ⊢
          simp [ih]
        | cons y ys =>
          rw [List.headI, List.tail, joinNl_cons₂]
          rw [joinNl_cons₂] at ih
          simp [ih]

theorem splitNl_eq_single_nil {s : List Char} : splitNl s = [[]] ↔ s = [] := by
  constructor
  · intro h
    have := joinNl_splitNl s
    rw [h] at this
    simpa [joinNl] using this.symm
  · intro h; subst h; rfl

theorem joinNl_eq_nil {ls : List (List Char)} (hne : ls ≠ []) :
    joinNl ls = [] ↔ ls = [[]] := by
  cases ls with
  | nil => exact absurd rfl hne
  | cons x t =>
    cases t with
    | nil =>
      constructor
      · intro h; simp [joinNl] at h; simp [h]
      · intro h; simp at h; simp [joinNl, h]
    | cons y ys =>
      rw [joinNl_cons₂]
      constructor
      · intro h
        exact absurd h (by simp)
      · intro h; simp at h

theorem endsNl_append {a b : List Char} (hb : b ≠ []) : endsNl (a ++ b) = endsNl b := by
  simp [endsNl, List.getLast?_append_of_ne_nil, hb]

theorem endsNl_joinNl {ls : List (List Char)} (hne : ls ≠ []) (h : ∀ l ∈ ls, '\n' ∉ l) :
    endsNl (joinNl ls) = true ↔ (ls.getLast? = some [] ∧ ls ≠ [[]]) := by
  induction ls with
  | nil => exact absurd rfl hne
  | cons x t ih =>
    cases t with
    | nil =>
      have hx : '\n' ∉ x := h x (List.mem_cons_self _ _)
      constructor
      · intro hend
        exfalso
        have hsome : x.getLast? = some '\n' := by simpa [joinNl, endsNl] using hend
        have h2 : '\n' ∈ x.getLast? := by simp [hsome]
        obtain ⟨hne2, heq⟩ := List.mem_getLast?_eq_getLast h2
        exact hx (heq ▸ List.getLast_mem hne2)
      · rintro ⟨h1, h2⟩
        simp at h1
        subst h1
        simp at h2
    | cons y ys =>
      rw [joinNl_cons₂]
      have hys : joinNl (y :: ys) = [] ∨ joinNl (y :: ys) ≠ [] := em _
      rcases hys with hnil | hnn
      · have : (y :: ys) = [[]] := (joinNl_eq_nil (by simp)).mp hnil
        have hy : y = [] ∧ ys = [] := by simpa using this
        obtain ⟨rfl, rfl⟩ := hy
        simp [hnil, endsNl]
      · rw [endsNl_append (b := '\n' :: joinNl (y :: ys)) (by simp)]
        have hcons : endsNl ('\n' :: joinNl (y :: ys)) = endsNl (joinNl (y :: ys)) := by
          have : ('\n' :: joinNl (y :: ys)) = ['\n'] ++ joinNl (y :: ys) := rfl
          rw [this, endsNl_append hnn]
        rw [hcons]
        rw [ih (by simp) (fun l hl => h l (List.mem_cons_of_mem x hl))]
        constructor
        · rintro ⟨h1, h2⟩
          refine ⟨by simpa using h1, by simp⟩
        · rintro ⟨h1, _⟩
          refine ⟨by simpa using h1, ?_⟩
          intro hcon
          rw [hcon] at hnn
          simp [joinNl] at hnn

theorem endsNl_iff_getLast {c : List Char} :
    endsNl c = true ↔ ((splitNl c).getLast? = some [] ∧ splitNl c ≠ [[]]) := by
  have := endsNl_joinNl (splitNl_ne_nil c) (splitNl_no_nl (s := c))
  rw [joinNl_splitNl] at this
  exact this

/-! Lemmas about inline-pattern matching and the inline fixed-point loop. -/

theorem firstIdx_lt {p : Char → Bool} {s : List Char} {n : Nat}
    (h : firstIdx p s = some n) : n < s.length := by
  induction s generalizing n with
  | nil => simp [firstIdx] at h
  | cons c cs ih =>
    by_cases hc : p c
    · simp [firstIdx, hc] at h
      simp [← h]
    · simp [firstIdx, hc] at h
      obtain ⟨m, hm, rfl⟩ := h
      have := ih hm
      simpa using this

theorem firstIdx_take {p : Char → Bool} {s : List Char} {n : Nat}
    (h : firstIdx p s = some n) : ∀ c ∈ s.take n, p c = false := by
  induction s generalizing n with
  | nil => simp
  | cons c cs ih =>
    by_cases hc : p c
    · simp [firstIdx, hc] at h
      simp [← h]
    · simp [firstIdx, hc] at h
      obtain ⟨m, hm, rfl⟩ := h
      intro x hx
      rw [List.take_succ_cons] at hx
      rcases List.mem_cons.mp hx with h1 | h1
      · subst h1
        exact Bool.eq_false_iff.mpr hc
      · exact ih hm x h1

theorem matchInline_some {pat : InlinePat} {s code : List Char}
    (h : matchInline pat s = some code) :
    ∃ p, firstIdx (fun c => pat.excl.contains c) s = some p ∧ 1 ≤ p ∧
      code = s.take (p - 1) := by
  unfold matchInline at h
  cases hf : firstIdx (fun c => pat.excl.contains c) s with
  | none => rw [hf] at h; simp at h
  | some p =>
    rw [hf] at h
    cases pat with
    | marker excl m =>
      simp only at h
      split at h
      · rename_i hcond
        exact ⟨p, rfl, hcond.1, (Option.some.inj h).symm⟩
      · simp at h
    | blockInl excl op cl =>
      simp only at h
      split at h
      · rename_i hcond
        exact ⟨p, rfl, hcond.1, (Option.some.inj h).symm⟩
      · simp at h

theorem matchInline_nil (pat : InlinePat) : matchInline pat [] = none := by
  cases pat <;> rfl

theorem matchInline_code_pre {pat : InlinePat} {s code : List Char}
    (h : matchInline pat s = some code) : code <+: s := by
  obtain ⟨p, _, _, rfl⟩ := matchInline_some h
  exact takePre _ _

theorem matchInline_code_lt {pat : InlinePat} {s code : List Char}
    (h : matchInline pat s = some code) : code.length < s.length := by
  obtain ⟨p, hp, h1, rfl⟩ := matchInline_some h
  have hlt := firstIdx_lt hp
  rw [List.length_take]
  omega

theorem matchInline_code_excl {pat : InlinePat} {s code : List Char}
    (h : matchInline pat s = some code) :
    ∀ c ∈ code, pat.excl.contains c = false := by
  obtain ⟨p, hp, h1, rfl⟩ := matchInline_some h
  intro c hc
  have hmono : s.take (p - 1) <+: s.take p := by
    have h2 : s.take (p - 1) = (s.take p).take (p - 1) := by
      rw [List.take_take]
      congr 1
      omega
    rw [h2]
    exact takePre _ _
  exact firstIdx_take hp c (preMem hmono hc)

theorem inlStep_pre (ra : Bool) (s : List Char) (pat : InlinePat) :
    inlStep ra s pat <+: s := by
  unfold inlStep
  cases hm : matchInline pat s with
  | none => exact ⟨[], List.append_nil s⟩
  | some code =>
    have hcode := matchInline_code_pre hm
    have hrs : rstrip code <+: s := preTrans (rstripPre code) hcode
    by_cases hra : ra
    · simpa [hra] using hrs
    · by_cases hc : strip code ≠ []
      · simpa [hra, hc] using hrs
      · simp only [hra, hc]
        exact ⟨[], List.append_nil s⟩

theorem inlStep_eq_or_lt (ra : Bool) (s : List Char) (pat : InlinePat) :
    inlStep ra s pat = s ∨ (inlStep ra s pat).length < s.length := by
  unfold inlStep
  cases hm : matchInline pat s with
  | none => exact Or.inl rfl
  | some code =>
    have hlt := matchInline_code_lt hm
    have hrs : (rstrip code).length < s.length :=
      lt_of_le_of_lt (preLen (rstripPre code)) hlt
    by_cases hra : ra
    · exact Or.inr (by simpa [hra] using hrs)
    · by_cases hc : strip code ≠ []
      · exact Or.inr (by simpa [hra, hc] using hrs)
      · exact Or.inl (by simp [hra, hc])

theorem inlStep_ne_nil {s : List Char} (hs : s ≠ []) (pat : InlinePat) :
    inlStep false s pat ≠ [] := by
  unfold inlStep
  cases hm : matchInline pat s with
  | none => exact hs
  | some code =>
    by_cases hc : strip code ≠ []
    · simpa [hc] using strip_ne_nil_rstrip hc
    · simpa [hc] using hs

theorem applyPats_pre (ra : Bool) (pats : List InlinePat) (s : List Char) :
    applyPats ra pats s <+: s := by
  induction pats generalizing s with
  | nil => exact ⟨[], List.append_nil s⟩
  | cons pat ps ih =>
    have h1 : applyPats ra (pat :: ps) s = applyPats ra ps (inlStep ra s pat) := rfl
    rw [h1]
    exact preTrans (ih (inlStep ra s pat)) (inlStep_pre ra s pat)

theorem applyPats_eq_or_lt (ra : Bool) (pats : List InlinePat) (s : List Char) :
    applyPats ra pats s = s ∨ (applyPats ra pats s).length < s.length := by
  induction pats generalizing s with
  | nil => exact Or.inl rfl
  | cons pat ps ih =>
    have h1 : applyPats ra (pat :: ps) s = applyPats ra ps (inlStep ra s pat) := rfl
    rw [h1]
    rcases inlStep_eq_or_lt ra s pat with heq | hlt
    · rw [heq]; exact ih s
    · rcases ih (inlStep ra s pat) with heq2 | hlt2
      · rw [heq2]; exact Or.inr hlt
      · exact Or.inr (lt_trans hlt2 hlt)

theorem applyPats_ne_nil {s : List Char} (hs : s ≠ []) (pats : List InlinePat) :
    applyPats false pats s ≠ [] := by
  induction pats generalizing s with
  | nil => exact hs
  | cons pat ps ih =>
    have h1 : applyPats false (pat :: ps) s = applyPats false ps (inlStep false s pat) := rfl
    rw [h1]
    exact ih (inlStep_ne_nil hs pat)

theorem applyPats_nil (ra : Bool) (pats : List InlinePat) : applyPats ra pats [] = [] := by
  have := applyPats_pre ra pats []
  obtain ⟨t, ht⟩ := this
  cases hap : applyPats ra pats [] with
  | nil => rfl
  | cons a l => rw [hap] at ht; simp at ht

theorem inlineLoop_fix (ra : Bool) (pats : List InlinePat) :
    ∀ fuel s, s.length < fuel →
      applyPats ra pats (inlineLoop ra pats fuel s) = inlineLoop ra pats fuel s := by
  intro fuel
  induction fuel with
  | zero => intro s h; omega
  | succ f ih =>
    intro s hs
    rw [inlineLoop]
    by_cases heq : applyPats ra pats s = s
    · simp only [heq, if_pos rfl]
      exact heq
    · simp only [if_neg heq]
      rcases applyPats_eq_or_lt ra pats s with h1 | h1
      · exact absurd h1 heq
      · exact ih (applyPats ra pats s) (by omega)

theorem stripInline_fix (ra : Bool) (pats : List InlinePat) (s : List Char) :
    applyPats ra pats (stripInline ra pats s) = stripInline ra pats s :=
  inlineLoop_fix ra pats (s.length + 1) s (Nat.lt_succ_self _)

theorem stripInline_of_fix {ra : Bool} {pats : List InlinePat} {s : List Char}
    (h : applyPats ra pats s = s) : stripInline ra pats s = s := by
  rw [stripInline, inlineLoop, h]
  simp

theorem stripInline_idem (ra : Bool) (pats : List InlinePat) (s : List Char) :
    stripInline ra pats (stripInline ra pats s) = stripInline ra pats s :=
  stripInline_of_fix (stripInline_fix ra pats s)

theorem inlineLoop_pre (ra : Bool) (pats : List InlinePat) :
    ∀ fuel s, inlineLoop ra pats fuel s <+: s := by
  intro fuel
  induction fuel with
  | zero => intro s; exact ⟨[], List.append_nil s⟩
  | succ f ih =>
    intro s
    rw [inlineLoop]
    by_cases heq : applyPats ra pats s = s
    · simp only [heq, if_pos rfl]
      exact ⟨[], List.append_nil s⟩
    · simp only [if_neg heq]
      exact preTrans (ih (applyPats ra pats s)) (applyPats_pre ra pats s)

theorem stripInline_pre (ra : Bool) (pats : List InlinePat) (s : List Char) :
    stripInline ra pats s <+: s :=
  inlineLoop_pre ra pats (s.length + 1) s

theorem stripInline_nil (ra : Bool) (pats : List InlinePat) :
    stripInline ra pats [] = [] :=
  stripInline_of_fix (applyPats_nil ra pats)

theorem stripInline_ne_nil {s : List Char} (hs : s ≠ []) (pats : List InlinePat) :
    stripInline false pats s ≠ [] := by
  rw [stripInline]
  generalize s.length + 1 = fuel
  induction fuel generalizing s with
  | zero => exact hs
  | succ f ih =>
    rw [inlineLoop]
    by_cases heq : applyPats false pats s = s
    · simpa [heq] using hs
    · simp only [if_neg heq]
      exact ih (applyPats_ne_nil hs pats)

/-! Lemmas about the blank-line cleanup stages. -/

theorem stage2_foldl_eq : ∀ (ls acc : List (List Char)),
    ls.foldl stage2Step acc =
      acc ++ stage2Go (decide (acc = [] ∨ acc.getLast? ≠ some [])) ls := by
  intro ls
  induction ls with
  | nil => intro acc; simp [stage2Go]
  | cons l t ih =>
    intro acc
    rw [List.foldl_cons]
    by_cases hl : l = []
    · subst hl
      by_cases hcan : acc = [] ∨ acc.getLast? ≠ some []
      · have hstep : stage2Step acc [] = acc ++ [[]] := by simp [stage2Step, hcan]
        rw [hstep, ih]
        have h2 : ¬((acc ++ [[]]) = [] ∨ (acc ++ [[]]).getLast? ≠ some []) := by
          simp
        rw [decide_eq_true hcan, decide_eq_false h2]
        have h3 : stage2Go true ([] :: t) = [] :: stage2Go false t := by
          simp [stage2Go]
        rw [h3, List.append_assoc]
        rfl
      · have hstep : stage2Step acc [] = acc := by simp [stage2Step, hcan]
        rw [hstep, ih]
        rw [decide_eq_false hcan]
        have h3 : stage2Go false ([] :: t) = stage2Go false t := by
          simp [stage2Go]
        rw [h3]
    · have hstep : stage2Step acc l = acc ++ [l] := by simp [stage2Step, hl]
      rw [hstep, ih]
      have h2 : ((acc ++ [l]) = [] ∨ (acc ++ [l]).getLast? ≠ some []) := by
        simp [hl]
      rw [decide_eq_true h2]
      have h3 : ∀ can, stage2Go can (l :: t) = l :: stage2Go true t := by
        intro can; simp [stage2Go, hl]
      rw [h3, List.append_assoc]
      rfl

theorem stage2_eq_go (ls : List (List Char)) : stage2 ls = stage2Go true ls := by
  rw [stage2, stage2_foldl_eq]
  simp

theorem stage2Go_false_head : ∀ ls : List (List Char), (stage2Go false ls).head? ≠ some [] := by
  intro ls
  induction ls with
  | nil => simp [stage2Go]
  | cons l t ih =>
    by_cases hl : l = []
    · subst hl
      simpa [stage2Go] using ih
    · simp [stage2Go, hl]

theorem noAdjNil_cons_of {a : List Char} {X : List (List Char)} (h : noAdjNil X)
    (hhead : a = [] → X.head? ≠ some []) : noAdjNil (a :: X) := by
  cases X with
  | nil => rfl
  | cons x xs =>
    have hx : (a.isEmpty && x.isEmpty) = false := by
      by_cases ha : a = []
      · have : x ≠ [] := fun hxe => hhead ha (by simp [hxe])
        simp [List.isEmpty_iff, this]
      · simp [List.isEmpty_iff, ha]
    simp only [noAdjNil, Bool.and_eq_true, Bool.not_eq_true']
    exact ⟨hx, h⟩

theorem noAdjNil_of_cons {a : List Char} {X : List (List Char)}
    (h : noAdjNil (a :: X)) : noAdjNil X := by
  cases X with
  | nil => rfl
  | cons x xs =>
    simp only [noAdjNil, Bool.and_eq_true] at h
    exact h.2

theorem noAdjNil_stage2Go : ∀ (ls : List (List Char)) (can : Bool), noAdjNil (stage2Go can ls) := by
  intro ls
  induction ls with
  | nil => intro can; rfl
  | cons l t ih =>
    intro can
    by_cases hl : l = []
    · subst hl
      cases can with
      | false => simpa [stage2Go] using ih false
      | true =>
        have h3 : stage2Go true ([] :: t) = [] :: stage2Go false t := by simp [stage2Go]
        rw [h3]
        exact noAdjNil_cons_of (ih false) (fun _ => stage2Go_false_head t)
    · have h3 : stage2Go can (l :: t) = l :: stage2Go true t := by simp [stage2Go, hl]
      rw [h3]
      exact noAdjNil_cons_of (ih true) (fun he => absurd he hl)

theorem mem_stage2Go : ∀ (ls : List (List Char)) (can : Bool) (x : List Char),
    x ∈ stage2Go can ls → x = [] ∨ x ∈ ls := by
  intro ls
  induction ls with
  | nil => intro can x hx; simp [stage2Go] at hx
  | cons l t ih =>
    intro can x hx
    by_cases hl : l = []
    · subst hl
      cases can with
      | false =>
        rw [show stage2Go false ([] :: t) = stage2Go false t by simp [stage2Go]] at hx
        rcases ih false x hx with h | h
        · exact Or.inl h
        · exact Or.inr (List.mem_cons_of_mem _ h)
      | true =>
        rw [show stage2Go true ([] :: t) = [] :: stage2Go false t by simp [stage2Go]] at hx
        rcases List.mem_cons.mp hx with h | h
        · exact Or.inl h
        · rcases ih false x h with h2 | h2
          · exact Or.inl h2
          · exact Or.inr (List.mem_cons_of_mem _ h2)
    · rw [show stage2Go can (l :: t) = l :: stage2Go true t by simp [stage2Go, hl]] at hx
      rcases List.mem_cons.mp hx with h | h
      · exact Or.inr (h ▸ List.mem_cons_self _ _)
      · rcases ih true x h with h2 | h2
        · exact Or.inl h2
        · exact Or.inr (List.mem_cons_of_mem _ h2)

theorem stage2Go_id : ∀ ls : List (List Char), noAdjNil ls →
    (stage2Go true ls = ls ∧ (ls.head? ≠ some [] → stage2Go false ls = ls)) := by
  intro ls
  induction ls with
  | nil => intro _; exact ⟨rfl, fun _ => rfl⟩
  | cons l t ih =>
    intro hno
    have ht := noAdjNil_of_cons hno
    by_cases hl : l = []
    · subst hl
      constructor
      · rw [show stage2Go true ([] :: t) = [] :: stage2Go false t by simp [stage2Go]]
        have hth : t.head? ≠ some [] := by
          cases t with
          | nil => simp
          | cons x xs =>
            intro hcon
            have hx : x = [] := by simpa using hcon
            subst hx
            simp [noAdjNil] at hno
        rw [(ih ht).2 hth]
      · intro hcon
        simp at hcon
    · constructor
      · rw [show stage2Go true (l :: t) = l :: stage2Go true t by simp [stage2Go, hl]]
        rw [(ih ht).1]
      · intro _
        rw [show stage2Go false (l :: t) = l :: stage2Go true t by simp [stage2Go, hl]]
        rw [(ih ht).1]

theorem stage2Go_all_nil : ∀ ls : List (List Char), (∀ x ∈ ls, x = []) →
    stage2Go false ls = [] ∧ stage2Go true ls = (if ls = [] then [] else [[]]) := by
  intro ls
  induction ls with
  | nil => intro _; exact ⟨rfl, rfl⟩
  | cons l t ih =>
    intro hall
    have hl : l = [] := hall l (List.mem_cons_self _ _)
    subst hl
    have iht := ih (fun x hx => hall x (List.mem_cons_of_mem _ hx))
    constructor
    · rw [show stage2Go false ([] :: t) = stage2Go false t by simp [stage2Go]]
      exact iht.1
    · rw [show stage2Go true ([] :: t) = [] :: stage2Go false t by simp [stage2Go]]
      rw [iht.1]
      simp

theorem popTrailAux_ne_nil : ∀ {r : List (List Char)}, r ≠ [] → popTrailAux r ≠ [] := by
  intro r
  induction r with
  | nil => intro h; exact absurd rfl h
  | cons x t ih =>
    intro _
    cases t with
    | nil => simp [popTrailAux]
    | cons y ys =>
      by_cases hx : x = []
      · rw [show popTrailAux (x :: y :: ys) = popTrailAux (y :: ys) by simp [popTrailAux, hx]]
        exact ih (by simp)
      · simp [popTrailAux, hx]

theorem popTrailAux_suffix : ∀ r : List (List Char), popTrailAux r <:+ r := by
  intro r
  induction r with
  | nil => exact ⟨[], rfl⟩
  | cons x t ih =>
    cases t with
    | nil => exact ⟨[], rfl⟩
    | cons y ys =>
      by_cases hx : x = []
      · rw [show popTrailAux (x :: y :: ys) = popTrailAux (y :: ys) by simp [popTrailAux, hx]]
        obtain ⟨u, hu⟩ := ih
        exact ⟨x :: u, by rw [List.cons_append, hu]⟩
      · exact ⟨[], by simp [popTrailAux, hx]⟩

theorem popTrailAux_head : ∀ r : List (List Char), r.getLast? ≠ some [] →
    (popTrailAux r).head? ≠ some [] := by
  intro r
  induction r with
  | nil => intro _; simp [popTrailAux]
  | cons x t ih =>
    intro hlast
    cases t with
    | nil =>
      simpa [popTrailAux] using hlast
    | cons y ys =>
      by_cases hx : x = []
      · rw [show popTrailAux (x :: y :: ys) = popTrailAux (y :: ys) by simp [popTrailAux, hx]]
        refine ih ?_
        rwa [List.getLast?_cons_cons] at hlast
      · simp [popTrailAux, hx]

theorem popTrailAux_id : ∀ r : List (List Char), r.head? ≠ some [] → popTrailAux r = r := by
  intro r
  induction r with
  | nil => intro _; rfl
  | cons x t ih =>
    intro hhead
    cases t with
    | nil => rfl
    | cons y ys =>
      have hx : x ≠ [] := by
        intro hcon
        exact hhead (by simp [hcon])
      simp [popTrailAux, hx]

theorem popTrail_pre (ls : List (List Char)) : popTrail ls <+: ls := by
  obtain ⟨u, hu⟩ := popTrailAux_suffix ls.reverse
  refine ⟨u.reverse, ?_⟩
  rw [popTrail]
  rw [← List.reverse_append, hu, List.reverse_reverse]

theorem popTrail_ne_nil {ls : List (List Char)} (h : ls ≠ []) : popTrail ls ≠ [] := by
  rw [popTrail]
  intro hcon
  have := popTrailAux_ne_nil (r := ls.reverse) (by simpa using h)
  exact this (by simpa using hcon)

theorem popTrail_getLast {ls : List (List Char)} (h : ls.head? ≠ some []) :
    (popTrail ls).getLast? ≠ some [] := by
  rw [popTrail, List.getLast?_reverse]
  exact popTrailAux_head ls.reverse (by rwa [List.getLast?_reverse])

theorem popTrail_id {ls : List (List Char)} (h : ls.getLast? ≠ some []) :
    popTrail ls = ls := by
  rw [popTrail, popTrailAux_id ls.reverse (by rwa [List.head?_reverse]), List.reverse_reverse]

theorem popTrail_append_nil {ls : List (List Char)} (hne : ls ≠ [])
    (h : ls.getLast? ≠ some []) : popTrail (ls ++ [[]]) = ls := by
  rw [popTrail, List.reverse_append]
  have h1 : ([[]] : List (List Char)).reverse ++ ls.reverse = [] :: ls.reverse := by simp
  rw [h1]
  cases hrev : ls.reverse with
  | nil => exact absurd (by simpa using hrev) hne
  | cons y ys =>
    rw [show popTrailAux ([] :: y :: ys) = popTrailAux (y :: ys) by simp [popTrailAux]]
    rw [← hrev, popTrailAux_id ls.reverse (by rwa [List.head?_reverse]), List.reverse_reverse]

theorem dropWhile_head_not {α : Type} (p : α → Bool) :
    ∀ (ls : List α) {x : α}, (ls.dropWhile p).head? = some x → p x = false := by
  intro ls
  induction ls with
  | nil => intro x hx; simp at hx
  | cons l t ih =>
    intro x hx
    by_cases hl : p l
    · rw [List.dropWhile_cons_of_pos hl] at hx
      exact ih hx
    · rw [List.dropWhile_cons_of_neg hl] at hx
      have : l = x := by simpa using hx
      subst this
      exact Bool.eq_false_iff.mpr hl

theorem dropWhile_id {α : Type} (p : α → Bool) (ls : List α)
    (h : ∀ x, ls.head? = some x → p x = false) : ls.dropWhile p = ls := by
  cases ls with
  | nil => rfl
  | cons l t =>
    have := h l rfl
    rw [List.dropWhile_cons_of_neg (by simp [this])]

theorem mem_stage1 {ls : List (List Char)} {x : List Char} (hx : x ∈ stage1 ls) :
    x = [] ∨ (x ∈ ls ∧ strip x ≠ []) := by
  rw [stage1] at hx
  obtain ⟨l, hl, heq⟩ := List.mem_map.mp hx
  by_cases hs : strip l = []
  · simp [hs] at heq
    exact Or.inl heq
  · simp [hs] at heq
    subst heq
    exact Or.inr ⟨hl, hs⟩

theorem stage1_id {ls : List (List Char)} (h : ∀ l ∈ ls, l = [] ∨ strip l ≠ []) :
    stage1 ls = ls := by
  rw [stage1]
  refine List.map_congr_left ?_ |>.trans (List.map_id ls)
  intro l hl
  rcases h l hl with h1 | h1
  · subst h1; simp [strip, lstrip, rstrip]
  · simp [h1]

theorem stage1_all_nil {ls : List (List Char)} (h : ∀ l ∈ ls, strip l = []) :
    ∀ x ∈ stage1 ls, x = [] := by
  intro x hx
  rw [stage1] at hx
  obtain ⟨l, hl, heq⟩ := List.mem_map.mp hx
  simp [h l hl] at heq
  exact heq

theorem noAdjNil_append_right {u a : List (List Char)} (hb : noAdjNil (u ++ a)) :
    noAdjNil a := by
  induction u with
  | nil => simpa using hb
  | cons w ws ih => exact ih (noAdjNil_of_cons (by simpa using hb))

theorem noAdjNil_append_left {a u : List (List Char)} (hb : noAdjNil (a ++ u)) :
    noAdjNil a := by
  induction a with
  | nil => rfl
  | cons x t ih =>
    cases t with
    | nil => rfl
    | cons y ys =>
      simp only [List.cons_append, noAdjNil, Bool.and_eq_true] at hb ⊢
      refine ⟨hb.1, ?_⟩
      have := ih (by simpa using hb.2)
      exact this

theorem noAdjNil_append_nil {R : List (List Char)} (h : noAdjNil R)
    (hlast : R.getLast? ≠ some []) : noAdjNil (R ++ [[]]) := by
  induction R with
  | nil => rfl
  | cons x t ih =>
    cases t with
    | nil =>
      have hx : x ≠ [] := fun hcon => hlast (by simp [hcon])
      show noAdjNil (x :: [[]]) = true
      simp [noAdjNil, List.isEmpty_iff, hx]
    | cons y ys =>
      have h2 := noAdjNil_of_cons h
      have hl2 : (y :: ys).getLast? ≠ some [] := by
        rwa [List.getLast?_cons_cons] at hlast
      have ih2 := ih h2 hl2
      have hpair : (!(x.isEmpty && y.isEmpty)) = true := by
        simp only [noAdjNil, Bool.and_eq_true] at h
        exact h.1
      show noAdjNil (x :: ((y :: ys) ++ [[]])) = true
      have hsplit : (y :: ys) ++ [[]] = y :: (ys ++ [[]]) := rfl
      rw [hsplit]
      rw [hsplit] at ih2
      simp only [noAdjNil, Bool.and_eq_true]
      exact ⟨hpair, ih2⟩

/-- Invariants of the full blank-line cleanup, used by several claims:
the result has no adjacent empty lines, no leading or trailing empty line,
and every line of it is empty or a line of the input with non-blank content. -/
theorem blankCollapse_noAdj (ls : List (List Char)) : noAdjNil (blankCollapse ls) := by
  rw [blankCollapse]
  have h1 : noAdjNil (stage2 (stage1 ls)) := by
    rw [stage2_eq_go]
    exact noAdjNil_stage2Go (stage1 ls) true
  have h2 : noAdjNil ((stage2 (stage1 ls)).dropWhile (fun l => l = [])) := by
    obtain ⟨u, hu⟩ := List.dropWhile_suffix (l := stage2 (stage1 ls)) (fun l => decide (l = []))
    refine noAdjNil_append_right (u := u) ?_
    rw [hu]
    exact h1
  obtain ⟨u, hu⟩ := popTrail_pre ((stage2 (stage1 ls)).dropWhile (fun l => l = []))
  refine noAdjNil_append_left (u := u) ?_
  rw [hu]
  exact h2

theorem blankCollapse_head (ls : List (List Char)) :
    (blankCollapse ls).head? ≠ some [] := by
  rw [blankCollapse]
  set I := (stage2 (stage1 ls)).dropWhile (fun l => l = []) with hI
  by_cases hne : I = []
  · rw [hne]
    simp [popTrail, popTrailAux]
  · have h1 : (popTrail I).head? = I.head? :=
      preHead (popTrail_pre I) (popTrail_ne_nil hne)
    rw [h1]
    intro hcon
    have := dropWhile_head_not (fun l => l = []) (stage2 (stage1 ls)) (x := []) (by rw [← hI]; exact hcon)
    simp at this

theorem blankCollapse_last (ls : List (List Char)) :
    (blankCollapse ls).getLast? ≠ some [] := by
  rw [blankCollapse]
  set I := (stage2 (stage1 ls)).dropWhile (fun l => l = []) with hI
  refine popTrail_getLast ?_
  intro hcon
  have := dropWhile_head_not (fun l => l = []) (stage2 (stage1 ls)) (x := []) (by rw [← hI]; exact hcon)
  simp at this

theorem blankCollapse_mem {ls : List (List Char)} {x : List Char}
    (hx : x ∈ blankCollapse ls) : x = [] ∨ (x ∈ ls ∧ strip x ≠ []) := by
  rw [blankCollapse] at hx
  have h1 : x ∈ (stage2 (stage1 ls)).dropWhile (fun l => l = []) := by
    obtain ⟨u, hu⟩ := popTrail_pre ((stage2 (stage1 ls)).dropWhile (fun l => l = []))
    rw [← hu]
    exact List.mem_append_left _ hx
  have h2 : x ∈ stage2 (stage1 ls) := by
    obtain ⟨u, hu⟩ := List.dropWhile_suffix (l := stage2 (stage1 ls)) (p := fun l => l = [])
    rw [← hu]
    exact List.mem_append_right _ h1
  rw [stage2_eq_go] at h2
  rcases mem_stage2Go (stage1 ls) true x h2 with h3 | h3
  · exact Or.inl h3
  · exact mem_stage1 h3

theorem blankCollapse_all_nil {ls : List (List Char)} (h : ∀ l ∈ ls, strip l = []) :
    blankCollapse ls = [] := by
  rw [blankCollapse, stage2_eq_go]
  have h1 := stage1_all_nil h
  have h2 := (stage2Go_all_nil (stage1 ls) h1).2
  rw [h2]
  by_cases hnil : stage1 ls = []
  · simp [hnil, popTrail, popTrailAux]
  · simp [hnil, popTrail, popTrailAux]

theorem blankCollapse_stable {R : List (List Char)} (hnoAdj : noAdjNil R)
    (hhead : R.head? ≠ some []) (hlast : R.getLast? ≠ some [])
    (hmem : ∀ x ∈ R, x = [] ∨ strip x ≠ []) :
    blankCollapse R = R ∧ (R ≠ [] → blankCollapse (R ++ [[]]) = R) := by
  constructor
  · rw [blankCollapse]
    rw [stage1_id hmem, stage2_eq_go, (stage2Go_id R hnoAdj).1]
    rw [dropWhile_id _ R (fun x hx => by
      cases R with
      | nil => simp at hx
      | cons a t =>
        have : a = x := by simpa using hx
        subst this
        have : a ≠ [] := fun hcon => hhead (by simp [hcon])
        simp [this])]
    exact popTrail_id hlast
  · intro hne
    rw [blankCollapse]
    have hmem2 : ∀ l ∈ R ++ [[]], l = [] ∨ strip l ≠ [] := by
      intro l hl
      rcases List.mem_append.mp hl with h1 | h1
      · exact hmem l h1
      · simp at h1
        exact Or.inl h1
    rw [stage1_id hmem2, stage2_eq_go,
      (stage2Go_id (R ++ [[]]) (noAdjNil_append_nil hnoAdj hlast)).1]
    rw [dropWhile_id _ (R ++ [[]]) (fun x hx => by
      cases R with
      | nil => exact absurd rfl hne
      | cons a t =>
        have : a = x := by simpa using hx
        subst this
        have : a ≠ [] := fun hcon => hhead (by simp [hcon])
        simp [this])]
    exact popTrail_append_nil hne hlast

/-! Lemmas about the whole pipeline. -/

theorem procLine_inline (ld : LangDef) (l : List Char) :
    procLine ld false l = stripInline false ld.inline l := by
  simp [procLine]

theorem procLine_nil (ld : LangDef) (ra : Bool) : procLine ld ra [] = [] := by
  rw [procLine]
  split
  · rfl
  · exact stripInline_nil ra ld.inline

theorem procLine_pre (ld : LangDef) (ra : Bool) (l : List Char) :
    procLine ld ra l <+: l := by
  rw [procLine]
  split
  · exact ⟨l, rfl⟩
  · exact stripInline_pre ra ld.inline l

theorem joinNl_append_nil {R : List (List Char)} (h : R ≠ []) :
    joinNl (R ++ [[]]) = joinNl R ++ ['\n'] := by
  induction R with
  | nil => exact absurd rfl h
  | cons x t ih =>
    cases t with
    | nil => rfl
    | cons y ys =>
      have h1 : (x :: y :: ys) ++ [[]] = x :: ((y :: ys) ++ [[]]) := rfl
      rw [h1]
      have h2 : (y :: ys) ++ [[]] = y :: (ys ++ [[]]) := rfl
      rw [h2]
      have h3 := ih (by simp)
      rw [h2] at h3
      rw [joinNl_cons₂, joinNl_cons₂, h3]
      simp

theorem map_stripInline_nl_free (pats : List InlinePat) (ra : Bool) (c : List Char) :
    ∀ l ∈ (splitNl c).map (stripInline ra pats), '\n' ∉ l := by
  intro l hl
  obtain ⟨a, ha, rfl⟩ := List.mem_map.mp hl
  intro hmem
  exact splitNl_no_nl a ha (preMem (stripInline_pre ra pats a) hmem)

theorem newlineFix_inline (ld : LangDef) (c : List Char) :
    newlineFix c ((splitNl c).map (stripInline false ld.inline))
      (joinNl ((splitNl c).map (stripInline false ld.inline))) =
      joinNl ((splitNl c).map (stripInline false ld.inline)) := by
  set lines := splitNl c with hldef
  set R := lines.map (stripInline false ld.inline) with hRdef
  have hlne : lines ≠ [] := splitNl_ne_nil c
  have hRne : R ≠ [] := by
    rw [hRdef]
    simp only [ne_eq, List.map_eq_nil_iff]
    exact hlne
  have hnl : ∀ l ∈ R, '\n' ∉ l := map_stripInline_nl_free ld.inline false c
  have hR1 : R = [[]] ↔ lines = [[]] := by
    constructor
    · intro h
      rw [hRdef] at h
      cases hls : lines with
      | nil => exact absurd hls hlne
      | cons a t =>
        rw [hls] at h
        simp only [List.map_cons] at h
        have h2 := List.cons.inj h
        have ht : t = [] := List.map_eq_nil_iff.mp h2.2
        have ha : a = [] := by
          by_contra hne
          exact stripInline_ne_nil hne ld.inline h2.1
        rw [ha, ht]
    · intro h
      rw [hRdef, h]
      rw [List.map_singleton, stripInline_nil]
  have hlast : R.getLast? = some [] ↔ lines.getLast? = some [] := by
    rw [hRdef, List.getLast?_map]
    cases hgl : lines.getLast? with
    | none => exact ⟨fun h2 => Option.noConfusion h2, fun h2 => Option.noConfusion h2⟩
    | some a =>
      show some (stripInline false ld.inline a) = some [] ↔ some a = some []
      constructor
      · intro h
        have ha : stripInline false ld.inline a = [] := by simpa using h
        have : a = [] := by
          by_contra hne
          exact stripInline_ne_nil hne ld.inline ha
        simp [this]
      · intro h
        have ha : a = [] := by simpa using h
        simp [ha, stripInline_nil]
  have hiff : endsNl (joinNl R) = true ↔ endsNl c = true := by
    rw [endsNl_joinNl hRne hnl, endsNl_iff_getLast]
    constructor
    · rintro ⟨h1, h2⟩
      exact ⟨hlast.mp h1, fun hc => h2 (hR1.mpr hc)⟩
    · rintro ⟨h1, h2⟩
      exact ⟨hlast.mpr h1, fun hc => h2 (hR1.mp hc)⟩
  have hends : endsNl (joinNl R) = endsNl c := Bool.eq_iff_iff.mpr hiff
  by_cases hfin : joinNl R = []
  · have hR2 : R = [[]] := (joinNl_eq_nil hRne).mp hfin
    have hc : c = [] := splitNl_eq_single_nil.mp (hR1.mp hR2)
    rw [newlineFix, if_neg (by rw [hR2]; simp), if_neg (by rw [hR2]; simp),
      if_neg (by rw [hfin]; simp), if_neg (by rw [hc]; simp [endsNl])]
  · rw [newlineFix, if_neg (by simp [hfin]), if_neg (by simp [hfin]), if_pos hfin]
    rw [hends]
    cases hc : endsNl c with
    | true => simp
    | false => simp

theorem rcu_inline (ld : LangDef) (c : List Char) :
    removeCommentsUniversal ld false c =
      joinNl ((splitNl c).map (stripInline false ld.inline)) := by
  have hpl : (splitNl c).map (procLine ld false) =
      (splitNl c).map (stripInline false ld.inline) :=
    List.map_congr_left (fun l _ => procLine_inline ld l)
  simp only [removeCommentsUniversal, Bool.false_eq_true, if_false, hpl]
  exact newlineFix_inline ld c

theorem removeBlocksAux_sub (op cl : List Char) :
    ∀ (fuel : Nat) (s : List Char), List.Sublist (removeBlocksAux op cl fuel s) s := by
  intro fuel
  induction fuel with
  | zero => intro s; exact List.Sublist.refl s
  | succ f ih =>
    intro s
    rw [removeBlocksAux]
    split
    · exact List.Sublist.refl s
    · rename_i i _
      split
      · exact List.Sublist.refl s
      · rename_i j _
        have hx := ih (s.drop (i + op.length + j + cl.length))
        have hdrop : List.Sublist (s.drop (i + op.length + j + cl.length)) (s.drop i) := by
          have heq : s.drop (i + op.length + j + cl.length) =
              (s.drop i).drop (op.length + j + cl.length) := by
            rw [List.drop_drop]
            congr 1
            omega
          rw [heq]
          exact List.drop_sublist _ _
        have hsub : List.Sublist
            (s.take i ++ removeBlocksAux op cl f (s.drop (i + op.length + j + cl.length)))
            (s.take i ++ s.drop i) :=
          List.Sublist.append_left (hx.trans hdrop) _
        rw [List.take_append_drop] at hsub
        exact hsub

theorem removeBlocks_sub (op cl s : List Char) :
    List.Sublist (removeBlocks op cl s) s :=
  removeBlocksAux_sub op cl (s.length + 1) s

theorem blockPass_sub (ld : LangDef) (s : List Char) :
    List.Sublist (blockPass ld s) s := by
  rw [blockPass]
  cases ld.blockDotall with
  | none => exact List.Sublist.refl s
  | some pr =>
    cases pr with
    | mk op cl => exact removeBlocks_sub op cl s

theorem blockPass_nil (ld : LangDef) : blockPass ld [] = [] :=
  List.sublist_nil.mp (blockPass_sub ld [])

theorem sublist_single {x : Char} {l : List Char} (h : List.Sublist l [x]) :
    l = [] ∨ l = [x] := by
  cases l with
  | nil => exact Or.inl rfl
  | cons a t =>
    cases t with
    | nil =>
      have : a ∈ [x] := h.subset (List.mem_cons_self a [])
      simp at this
      exact Or.inr (by simp [this])
    | cons b u =>
      have := List.Sublist.length_le h
      simp at this

theorem rcu_ra_out (ld : LangDef) (c : List Char) :
    removeCommentsUniversal ld true c =
      (if blankCollapse ((splitNl (blockPass ld c)).map (procLine ld true)) = []
       then (if endsNl c then ['\n'] else [])
       else if endsNl c
            then joinNl (blankCollapse ((splitNl (blockPass ld c)).map (procLine ld true))) ++ ['\n']
            else joinNl (blankCollapse ((splitNl (blockPass ld c)).map (procLine ld true)))) := by
  set X := (splitNl (blockPass ld c)).map (procLine ld true) with hX
  set R := blankCollapse X with hRdef
  have hrcueq : removeCommentsUniversal ld true c = newlineFix c R (joinNl R) := by
    simp only [removeCommentsUniversal, if_true, hX, hRdef]
  rw [hrcueq]
  by_cases hR : R = []
  · rw [if_pos hR, hR]
    have hjn : joinNl ([] : List (List Char)) = [] := rfl
    by_cases h1 : c = ['\n']
    · rw [newlineFix, if_pos (by simp [h1, hjn])]
      rw [h1]
      simp [endsNl]
    · by_cases h2 : c = []
      · rw [newlineFix, if_neg (by simp [h1]), if_pos (by simp [h2, hjn])]
        rw [h2]
        simp [endsNl]
      · rw [newlineFix, if_neg (by simp [h1]), if_neg (by simp [h2]), if_neg (by simp [hjn])]
        cases hc : endsNl c with
        | true => simp [hc, hjn]
        | false => simp [hc, hjn]
  · have hhead : R.head? ≠ some [] := by rw [hRdef]; exact blankCollapse_head X
    have hlast : R.getLast? ≠ some [] := by rw [hRdef]; exact blankCollapse_last X
    have hnl : ∀ l ∈ R, '\n' ∉ l := by
      intro l hl
      rcases blankCollapse_mem (hRdef ▸ hl) with h1 | h1
      · simp [h1]
      · obtain ⟨a, ha, rfl⟩ := List.mem_map.mp h1.1
        intro hmem
        exact splitNl_no_nl a ha (preMem (procLine_pre ld true a) hmem)
    have hR1 : R ≠ [[]] := by
      intro hcon
      exact hhead (by rw [hcon]; rfl)
    have hfin : joinNl R ≠ [] := fun hcon => hR1 ((joinNl_eq_nil hR).mp hcon)
    have hje : endsNl (joinNl R) = false := by
      cases hjv : endsNl (joinNl R) with
      | false => rfl
      | true =>
        obtain ⟨h1, _⟩ := (endsNl_joinNl hR hnl).mp hjv
        exact absurd h1 hlast
    rw [if_neg hR]
    rw [newlineFix, if_neg (by simp [hfin]), if_neg (by simp [hfin]), if_pos hfin]
    rw [hje]
    cases hc : endsNl c with
    | true => simp
    | false => simp

theorem rcu_ra_nil (ld : LangDef) : removeCommentsUniversal ld true [] = [] := by
  rw [rcu_ra_out, blockPass_nil]
  have hX : (splitNl ([] : List Char)).map (procLine ld true) = [[]] := by
    rw [splitNl_nil, List.map_singleton, procLine_nil]
  rw [hX]
  have hbc : blankCollapse [[]] = [] := by
    refine blankCollapse_all_nil ?_
    intro l hl
    have hln : l = [] := by simpa using hl
    rw [hln]
    rfl
  rw [hbc]
  simp [endsNl]

theorem rcu_ra_newline (ld : LangDef) : removeCommentsUniversal ld true ['\n'] = ['\n'] := by
  rw [rcu_ra_out]
  have hbc : blankCollapse ((splitNl (blockPass ld ['\n'])).map (procLine ld true)) = [] := by
    refine blankCollapse_all_nil ?_
    intro l hl
    obtain ⟨a, ha, rfl⟩ := List.mem_map.mp hl
    have hanil : a = [] := by
      rcases sublist_single (blockPass_sub ld ['\n']) with h1 | h1 <;> rw [h1] at ha
      · rw [splitNl_nil] at ha
        simpa using ha
      · rw [splitNl_cons_nl, splitNl_nil] at ha
        rcases List.mem_cons.mp ha with h2 | h2
        · exact h2
        · simpa using h2
    rw [hanil, procLine_nil]
    rfl
  rw [hbc]
  simp [endsNl]

/-! Lemmas about whole-line comments and the inline stripper in
inline-only mode. -/

theorem strip_eq_nil_of_ws {s : List Char} (h : ∀ c ∈ s, isWs c) : strip s = [] := by
  rw [strip, lstrip_eq_nil h]
  rfl

theorem strip_mem {s : List Char} {x : Char} (hx : x ∈ strip s) : x ∈ s := by
  have h1 : x ∈ lstrip s := preMem (rstripPre (lstrip s)) hx
  obtain ⟨u, hu⟩ := List.dropWhile_suffix (l := s) isWs
  rw [← hu]
  exact List.mem_append_right _ h1

theorem fpHeadOkB_spec {ip : InlinePat} {fp : FullPat} (h : fpHeadOkB ip fp = true) :
    ∃ hch, fpHead fp = some hch ∧ hch ∈ ip.excl := by
  rw [fpHeadOkB] at h
  cases hf : fpHead fp with
  | none => rw [hf] at h; simp at h
  | some hch =>
    rw [hf] at h
    exact ⟨hch, rfl, List.mem_of_elem_eq_true h⟩

theorem matchFull_head {fp : FullPat} {t : List Char} {hch : Char}
    (hmat : matchFull fp t = true) (hf : fpHead fp = some hch) :
    t.head? = some hch := by
  cases fp with
  | starts m =>
    have hpre : m <+: t := List.isPrefixOf_iff_prefix.mp hmat
    cases m with
    | nil => simp [fpHead] at hf
    | cons a m' =>
      have ha : a = hch := by simpa [fpHead] using hf
      obtain ⟨u, rfl⟩ := hpre
      simp [ha]
  | blockLine op cl =>
    simp only [matchFull, Bool.and_eq_true] at hmat
    have hpre : op <+: t := List.isPrefixOf_iff_prefix.mp hmat.1.1
    cases op with
    | nil => simp [fpHead] at hf
    | cons a op' =>
      have ha : a = hch := by simpa [fpHead] using hf
      obtain ⟨u, rfl⟩ := hpre
      simp [ha]

theorem firstIdx_append {p : Char → Bool} :
    ∀ (a : List Char) (x : Char) (b : List Char), (∀ c ∈ a, p c = false) → p x = true →
      firstIdx p (a ++ x :: b) = some a.length := by
  intro a
  induction a with
  | nil =>
    intro x b _ hx
    simp [firstIdx, hx]
  | cons c cs ih =>
    intro x b hall hx
    have hc : p c = false := hall c (List.mem_cons_self _ _)
    have hrec := ih x b (fun d hd => hall d (List.mem_cons_of_mem _ hd)) hx
    have hgoal : firstIdx p (c :: (cs ++ x :: b)) =
        (if p c = true then some 0 else (firstIdx p (cs ++ x :: b)).map (· + 1)) := rfl
    rw [List.cons_append, hgoal, hc, if_neg (by simp), hrec]
    rfl

theorem inlStep_id_of_head (ip : InlinePat) (l : List Char) (hch : Char)
    (hhead : (strip l).head? = some hch) (hex : hch ∈ ip.excl)
    (hws : ∀ e ∈ ip.excl, isWs e = false) : inlStep false l ip = l := by
  rw [inlStep]
  cases hm : matchInline ip l with
  | none => rfl
  | some code =>
    have hsc : strip code = [] := by
      obtain ⟨p, hp, h1, hcode⟩ := matchInline_some hm
      have hl_split : l.takeWhile isWs ++ lstrip l = l := List.takeWhile_append_dropWhile isWs l
      have hstne : strip l ≠ [] := by
        intro hcon
        rw [hcon] at hhead
        simp at hhead
      have hlh : (lstrip l).head? = some hch := by
        rw [← preHead (rstripPre (lstrip l)) hstne]
        exact hhead
      obtain ⟨rest, hrest⟩ : ∃ rest, lstrip l = hch :: rest := by
        cases hls : lstrip l with
        | nil => rw [hls] at hlh; simp at hlh
        | cons a r =>
          rw [hls] at hlh
          have : a = hch := by simpa using hlh
          exact ⟨r, by rw [this]⟩
      have hfi : firstIdx (fun c => ip.excl.contains c) l =
          some (l.takeWhile isWs).length := by
        conv_lhs => rw [← hl_split, hrest]
        refine firstIdx_append (l.takeWhile isWs) hch rest ?_ ?_
        · intro c hc
          have hcw : isWs c = true := List.mem_takeWhile_imp hc
          cases hcc : ip.excl.contains c with
          | false => rfl
          | true =>
            have : c ∈ ip.excl := List.mem_of_elem_eq_true hcc
            rw [hws c this] at hcw
            exact absurd hcw (by simp)
        · exact List.elem_eq_true_of_mem hex
      have hpw : p = (l.takeWhile isWs).length := by
        rw [hfi] at hp
        exact (Option.some.inj hp).symm
      have hcode_ws : ∀ c ∈ code, isWs c := by
        intro c hc
        rw [hcode, hpw] at hc
        have htk : ∀ n, n ≤ (l.takeWhile isWs).length →
            l.take n = (l.takeWhile isWs).take n := by
          intro n hn
          conv_lhs => rw [← hl_split]
          exact List.take_append_of_le_length hn
        rw [htk _ (Nat.sub_le _ _)] at hc
        exact List.mem_takeWhile_imp (preMem (takePre _ _) hc)
      exact strip_eq_nil_of_ws hcode_ws
    simp [hsc]

theorem applyPats_id_of_steps {pats : List InlinePat} {l : List Char}
    (h : ∀ ip ∈ pats, inlStep false l ip = l) : applyPats false pats l = l := by
  induction pats with
  | nil => rfl
  | cons ip ps ih =>
    have h1 : applyPats false (ip :: ps) l = applyPats false ps (inlStep false l ip) := rfl
    rw [h1, h ip (List.mem_cons_self _ _)]
    exact ih (fun q hq => h q (List.mem_cons_of_mem _ hq))

/-- Core of the inline-only guarantee: on a line whose stripped form
fullmatches some full-line pattern, provided every full-line marker of the
profile starts with an inline-excluded, non-whitespace character, the inline
fixed point leaves the line unchanged. -/
theorem stripInline_full_line_id (ld : LangDef)
    (hH : ∀ fp ∈ ld.fullLine, ∀ ip ∈ ld.inline, fpHeadOkB ip fp = true)
    (hG : ∀ ip ∈ ld.inline, ∀ e ∈ ip.excl, isWs e = false)
    (l : List Char)
    (hfull : ld.fullLine.any (fun fp => matchFull fp (strip l)) = true) :
    stripInline false ld.inline l = l := by
  refine stripInline_of_fix (applyPats_id_of_steps ?_)
  intro ip hip
  obtain ⟨fp, hfp, hmat⟩ := List.any_eq_true.mp hfull
  obtain ⟨hch, hfph, hex⟩ := fpHeadOkB_spec (hH fp hfp ip hip)
  exact inlStep_id_of_head ip l hch (matchFull_head hmat hfph) hex (hG ip hip)

theorem lookup_mem {α β : Type} [BEq α] :
    ∀ (l : List (α × β)) (k : α) (v : β), l.lookup k = some v → v ∈ l.map Prod.snd := by
  intro l
  induction l with
  | nil => intro k v h; simp [List.lookup] at h
  | cons pr t ih =>
    intro k v h
    cases pr with
    | mk pk pv =>
      rw [List.lookup] at h
      split at h
      · have : pv = v := Option.some.inj h
        rw [List.map_cons]
        exact this ▸ List.mem_cons_self _ _
      · exact List.mem_cons_of_mem _ (ih k v h)

theorem lookup_profile {e : List Char} {ld : LangDef}
    (h : languageMap.lookup e = some ld) :
    ld = pythonLike ∨ ld = cLike ∨ ld = cLikeLineOnly ∨ ld = xmlLike ∨
      ld = cssLike ∨ ld = phpLike := by
  have hm := lookup_mem languageMap e ld h
  simp only [languageMap, List.map_cons, List.map_nil, List.mem_cons,
    List.not_mem_nil, or_false] at hm
  tauto

theorem profile_HG (ld : LangDef)
    (hld : ld = pythonLike ∨ ld = cLike ∨ ld = cLikeLineOnly ∨ ld = xmlLike ∨
      ld = cssLike ∨ ld = phpLike) :
    (∀ fp ∈ ld.fullLine, ∀ ip ∈ ld.inline, fpHeadOkB ip fp = true) ∧
    (∀ ip ∈ ld.inline, ∀ e ∈ ip.excl, isWs e = false) := by
  rcases hld with rfl | rfl | rfl | rfl | rfl | rfl <;>
    exact ⟨by decide, by decide⟩

/-! Lemmas about idempotence and trailing-newline behaviour. -/

theorem rcu_inline_split (ld : LangDef) (c : List Char) :
    splitNl (removeCommentsUniversal ld false c) =
      (splitNl c).map (stripInline false ld.inline) := by
  rw [rcu_inline]
  refine splitNl_joinNl (map_stripInline_nl_free ld.inline false c) ?_
  simp only [ne_eq, List.map_eq_nil_iff]
  exact splitNl_ne_nil c

theorem rcu_inline_idem (ld : LangDef) (c : List Char) :
    removeCommentsUniversal ld false (removeCommentsUniversal ld false c) =
      removeCommentsUniversal ld false c := by
  rw [rcu_inline ld (removeCommentsUniversal ld false c), rcu_inline_split, List.map_map]
  have hcomp : (splitNl c).map (stripInline false ld.inline ∘ stripInline false ld.inline) =
      (splitNl c).map (stripInline false ld.inline) :=
    List.map_congr_left (fun l _ => stripInline_idem false ld.inline l)
  rw [hcomp, ← rcu_inline]

theorem endsNl_rcu_inline (ld : LangDef) (c : List Char) :
    endsNl (removeCommentsUniversal ld false c) = endsNl c := by
  rw [rcu_inline]
  set lines := splitNl c with hldef
  set R := lines.map (stripInline false ld.inline) with hRdef
  have hlne : lines ≠ [] := splitNl_ne_nil c
  have hRne : R ≠ [] := by
    rw [hRdef]
    simp only [ne_eq, List.map_eq_nil_iff]
    exact hlne
  have hnl : ∀ l ∈ R, '\n' ∉ l := map_stripInline_nl_free ld.inline false c
  have hR1 : R = [[]] ↔ lines = [[]] := by
    constructor
    · intro h
      rw [hRdef] at h
      cases hls : lines with
      | nil => exact absurd hls hlne
      | cons a t =>
        rw [hls] at h
        simp only [List.map_cons] at h
        have h2 := List.cons.inj h
        have ht : t = [] := List.map_eq_nil_iff.mp h2.2
        have ha : a = [] := by
          by_contra hne
          exact stripInline_ne_nil hne ld.inline h2.1
        rw [ha, ht]
    · intro h
      rw [hRdef, h]
      rw [List.map_singleton, stripInline_nil]
  have hlast : R.getLast? = some [] ↔ lines.getLast? = some [] := by
    rw [hRdef, List.getLast?_map]
    cases hgl : lines.getLast? with
    | none => exact ⟨fun h2 => Option.noConfusion h2, fun h2 => Option.noConfusion h2⟩
    | some a =>
      show some (stripInline false ld.inline a) = some [] ↔ some a = some []
      constructor
      · intro h
        have ha : stripInline false ld.inline a = [] := by simpa using h
        have : a = [] := by
          by_contra hne
          exact stripInline_ne_nil hne ld.inline ha
        simp [this]
      · intro h
        have ha : a = [] := by simpa using h
        simp [ha, stripInline_nil]
  refine Bool.eq_iff_iff.mpr ?_
  rw [endsNl_joinNl hRne hnl, endsNl_iff_getLast]
  constructor
  · rintro ⟨h1, h2⟩
    exact ⟨hlast.mp h1, fun hc => h2 (hR1.mpr hc)⟩
  · rintro ⟨h1, h2⟩
    exact ⟨hlast.mpr h1, fun hc => h2 (hR1.mp hc)⟩

theorem map_procLine_nl_free (ld : LangDef) (ra : Bool) (b : List Char) :
    ∀ l ∈ (splitNl b).map (procLine ld ra), '\n' ∉ l := by
  intro l hl
  obtain ⟨a, ha, rfl⟩ := List.mem_map.mp hl
  intro hmem
  exact splitNl_no_nl a ha (preMem (procLine_pre ld ra a) hmem)

theorem stripInline_single_excl (ra : Bool) (ip : InlinePat) (s : List Char) :
    stripInline ra [ip] s = s ∨
      ∀ c ∈ stripInline ra [ip] s, ip.excl.contains c = false := by
  by_cases h : applyPats ra [ip] s = s
  · exact Or.inl (stripInline_of_fix h)
  · right
    have hunf : stripInline ra [ip] s = inlineLoop ra [ip] s.length (applyPats ra [ip] s) := by
      rw [stripInline, inlineLoop, if_neg h]
    have hstep : applyPats ra [ip] s = inlStep ra s ip := rfl
    have hfree : ∀ c ∈ applyPats ra [ip] s, ip.excl.contains c = false := by
      rw [hstep] at h ⊢
      intro c hc
      rw [inlStep] at hc h
      cases hm : matchInline ip s with
      | none =>
        rw [hm] at h
        exact absurd rfl h
      | some code =>
        rw [hm] at hc h
        have hmem : c ∈ rstrip code := by
          cases ra with
          | true => simpa using hc
          | false =>
            by_cases hcs : strip code ≠ []
            · simpa [hcs] using hc
            · exact absurd (by simp [hcs]) h
        exact matchInline_code_excl hm c (preMem (rstripPre code) hmem)
    intro c hc
    rw [hunf] at hc
    exact hfree c (preMem (inlineLoop_pre ra [ip] s.length (applyPats ra [ip] s)) hc)

theorem procLine_ra_stable (ld : LangDef) (ip : InlinePat) (hip : ld.inline = [ip])
    (hfp : ∀ fp ∈ ld.fullLine, ∃ m hd tl, fp = FullPat.starts m ∧ m = hd :: tl ∧ hd ∈ ip.excl)
    (l : List Char) : procLine ld true (procLine ld true l) = procLine ld true l := by
  by_cases hfull : ld.fullLine.any (fun fp => matchFull fp (strip l)) = true
  · have hr : procLine ld true l = [] := by
      rw [procLine, if_pos (by simpa using hfull)]
    rw [hr, procLine_nil]
  · have hr : procLine ld true l = stripInline true [ip] l := by
      rw [procLine, if_neg (by simpa using hfull), hip]
    rw [hr, procLine, hip]
    by_cases hfull2 :
        ld.fullLine.any (fun fp => matchFull fp (strip (stripInline true [ip] l))) = true
    · exfalso
      obtain ⟨fp, hfpm, hmat⟩ := List.any_eq_true.mp hfull2
      obtain ⟨m, hd, tl, rfl, hm, hdex⟩ := hfp fp hfpm
      subst hm
      have hhd : hd ∈ strip (stripInline true [ip] l) := by
        have hpre : (hd :: tl) <+: strip (stripInline true [ip] l) :=
          List.isPrefixOf_iff_prefix.mp hmat
        obtain ⟨u, hu⟩ := hpre
        rw [← hu]
        exact List.mem_append_left _ (List.mem_cons_self _ _)
      have hhd2 : hd ∈ stripInline true [ip] l := strip_mem hhd
      rcases stripInline_single_excl true ip l with hcase | hcase
      · rw [hcase] at hmat
        exact hfull (List.any_eq_true.mpr ⟨FullPat.starts (hd :: tl), hfpm, hmat⟩)
      · have hfalse := hcase hd hhd2
        have htrue := List.elem_eq_true_of_mem hdex
        exact Bool.noConfusion (htrue.symm.trans hfalse)
    · rw [if_neg (by simpa using hfull2)]
      exact stripInline_idem true [ip] l

theorem endsNl_joinNl_concat (R : List (List Char)) :
    endsNl (joinNl R ++ ['\n']) = true := by
  simp [endsNl, List.getLast?_concat]

theorem rcu_ra_idem_core (ld : LangDef) (ip : InlinePat) (hnb : ld.blockDotall = none)
    (hip : ld.inline = [ip])
    (hfp : ∀ fp ∈ ld.fullLine, ∃ m hd tl, fp = FullPat.starts m ∧ m = hd :: tl ∧ hd ∈ ip.excl)
    (c : List Char) :
    removeCommentsUniversal ld true (removeCommentsUniversal ld true c) =
      removeCommentsUniversal ld true c := by
  have hbp : ∀ s, blockPass ld s = s := fun s => by rw [blockPass, hnb]
  have hout : removeCommentsUniversal ld true c =
      (if blankCollapse ((splitNl c).map (procLine ld true)) = []
       then (if endsNl c then ['\n'] else [])
       else if endsNl c
            then joinNl (blankCollapse ((splitNl c).map (procLine ld true))) ++ ['\n']
            else joinNl (blankCollapse ((splitNl c).map (procLine ld true)))) := by
    rw [rcu_ra_out, hbp]
  set X := (splitNl c).map (procLine ld true) with hX
  set R := blankCollapse X with hRdef
  by_cases hRnil : R = []
  · rw [hout, if_pos hRnil]
    cases hc : endsNl c with
    | true =>
      simp only [eq_self_iff_true, if_true]
      exact rcu_ra_newline ld
    | false =>
      simp only [Bool.false_eq_true, if_false]
      exact rcu_ra_nil ld
  · have hhead : R.head? ≠ some [] := by rw [hRdef]; exact blankCollapse_head X
    have hlast : R.getLast? ≠ some [] := by rw [hRdef]; exact blankCollapse_last X
    have hnoAdj : noAdjNil R := by rw [hRdef]; exact blankCollapse_noAdj X
    have hmemX : ∀ x ∈ R, x = [] ∨ (x ∈ X ∧ strip x ≠ []) := fun x hx =>
      blankCollapse_mem (hRdef ▸ hx)
    have hnlR : ∀ l ∈ R, '\n' ∉ l := by
      intro l hl
      rcases hmemX l hl with rfl | ⟨hlX, _⟩
      · simp
      · exact map_procLine_nl_free ld true c l hlX
    have hstab : ∀ x ∈ R, procLine ld true x = x := by
      intro x hx
      rcases hmemX x hx with rfl | ⟨hxX, _⟩
      · exact procLine_nil ld true
      · obtain ⟨a, _, rfl⟩ := List.mem_map.mp hxX
        exact procLine_ra_stable ld ip hip hfp a
    have hmapR : R.map (procLine ld true) = R :=
      (List.map_congr_left hstab).trans (List.map_id R)
    have hstableR := blankCollapse_stable hnoAdj hhead hlast
      (fun x hx => (hmemX x hx).imp id (fun h => h.2))
    have hjne : joinNl R ≠ [] := by
      intro hcon
      have hcon2 := (joinNl_eq_nil hRnil).mp hcon
      exact hhead (by rw [hcon2]; rfl)
    have hje : endsNl (joinNl R) = false := by
      cases hjv : endsNl (joinNl R) with
      | false => rfl
      | true =>
        obtain ⟨h1, _⟩ := (endsNl_joinNl hRnil hnlR).mp hjv
        exact absurd h1 hlast
    cases hc : endsNl c with
    | false =>
      rw [hout, if_neg hRnil, hc]
      simp only [Bool.false_eq_true, if_false]
      rw [rcu_ra_out, hbp]
      have hsplit : splitNl (joinNl R) = R := splitNl_joinNl hnlR hRnil
      rw [hsplit, hmapR]
      rw [hstableR.1]
      rw [if_neg hRnil, hje]
      simp
    | true =>
      rw [hout, if_neg hRnil, hc]
      simp only [eq_self_iff_true, if_true]
      rw [rcu_ra_out, hbp]
      have hjoin2 : joinNl R ++ ['\n'] = joinNl (R ++ [[]]) := (joinNl_append_nil hRnil).symm
      rw [hjoin2]
      have hnl2 : ∀ l ∈ R ++ [[]], '\n' ∉ l := by
        intro l hl
        rcases List.mem_append.mp hl with h1 | h1
        · exact hnlR l h1
        · simp at h1
          simp [h1]
      have hsplit : splitNl (joinNl (R ++ [[]])) = R ++ [[]] :=
        splitNl_joinNl hnl2 (by simp)
      rw [hsplit]
      have hmap2 : (R ++ [[]]).map (procLine ld true) = R ++ [[]] := by
        rw [List.map_append, hmapR]
        rw [List.map_singleton, procLine_nil]
      rw [hmap2]
      rw [hstableR.2 hRnil]
      rw [if_neg hRnil]
      have hend2 : endsNl (joinNl (R ++ [[]])) = true := by
        rw [← hjoin2]
        exact endsNl_joinNl_concat R
      rw [hend2]
      simp only [eq_self_iff_true, if_true]
      exact hjoin2

theorem blankCollapse_map_nl_free (ld : LangDef) (ra : Bool) (b : List Char) :
    ∀ l ∈ blankCollapse ((splitNl b).map (procLine ld ra)), '\n' ∉ l := by
  intro l hl
  rcases blankCollapse_mem hl with rfl | ⟨h1, _⟩
  · simp
  · exact map_procLine_nl_free ld ra b l h1

theorem rcu_ra_je (ld : LangDef) (b : List Char)
    (hne : blankCollapse ((splitNl b).map (procLine ld true)) ≠ []) :
    endsNl (joinNl (blankCollapse ((splitNl b).map (procLine ld true)))) = false := by
  cases hjv : endsNl (joinNl (blankCollapse ((splitNl b).map (procLine ld true)))) with
  | false => rfl
  | true =>
    obtain ⟨h1, _⟩ := (endsNl_joinNl hne (blankCollapse_map_nl_free ld true b)).mp hjv
    exact absurd h1 (blankCollapse_last _)

theorem rcu_ra_endsNl (ld : LangDef) (c : List Char) :
    endsNl (removeCommentsUniversal ld true c) = endsNl c := by
  rw [rcu_ra_out]
  by_cases hR : blankCollapse ((splitNl (blockPass ld c)).map (procLine ld true)) = []
  · rw [if_pos hR]
    cases hc : endsNl c with
    | true => simp [endsNl]
    | false => simp [endsNl]
  · rw [if_neg hR]
    cases hc : endsNl c with
    | true =>
      simp only [eq_self_iff_true, if_true]
      exact endsNl_joinNl_concat _
    | false =>
      simp only [Bool.false_eq_true, if_false]
      exact rcu_ra_je ld (blockPass ld c) hR

theorem rcu_inline_nil (ld : LangDef) : removeCommentsUniversal ld false [] = [] := by
  rw [rcu_inline, splitNl_nil, List.map_singleton, stripInline_nil]
  rfl

theorem rcu_inline_newline (ld : LangDef) :
    removeCommentsUniversal ld false ['\n'] = ['\n'] := by
  rw [rcu_inline]
  have h1 : splitNl ['\n'] = [[], []] := by
    rw [show (['\n'] : List Char) = '\n' :: [] from rfl, splitNl_cons_nl, splitNl_nil]
  rw [h1, List.map_cons, List.map_singleton, stripInline_nil]
  rfl

/-! The claims. -/

/-- C1 counterexample: `process_code_content` is not idempotent.  For the
`.c` profile in RemoveAll mode, removing the block comment of
`"a//*x*/*q\nw*/e\n"` splices the leftover `/` and `*q ... w*/` into a new
block comment spanning two lines; the first run keeps it, the second run's
block pass removes it. -/
theorem C1_counterexample :
    processCodeContent
        (processCodeContent "a//*x*/*q\nw*/e\n".data ".c".data true) ".c".data true ≠
      processCodeContent "a//*x*/*q\nw*/e\n".data ".c".data true := by
  decide

/-- C1 (amended): applying the transform twice equals applying it once in
InlineOnly mode for every input and extension, and in RemoveAll mode for
every extension whose profile has no block pattern; RemoveAll with a block
pattern is excluded (see the counterexample). -/
theorem C1_idempotent_amended (content ext : List Char) (m : Bool)
    (h : m = false ∨
      ∀ ld, languageMap.lookup (lowerStr ext) = some ld → ld.blockDotall = none) :
    processCodeContent (processCodeContent content ext m) ext m =
      processCodeContent content ext m := by
  cases hlk : languageMap.lookup (lowerStr ext) with
  | none => simp [processCodeContent, hlk]
  | some ld =>
    simp only [processCodeContent, hlk]
    cases m with
    | false => exact rcu_inline_idem ld content
    | true =>
      have hnb : ld.blockDotall = none := by
        rcases h with h | h
        · exact absurd h (by simp)
        · exact h ld hlk
      rcases lookup_profile hlk with rfl | rfl | rfl | rfl | rfl | rfl
      · refine rcu_ra_idem_core pythonLike (.marker ['#'] ['#']) rfl rfl ?_ content
        intro fp hfp
        have hfp2 : fp = FullPat.starts ['#'] := by simpa [pythonLike] using hfp
        exact ⟨['#'], '#', [], hfp2, rfl, by decide⟩
      · exact absurd hnb (by simp [cLike])
      · refine rcu_ra_idem_core cLikeLineOnly (.marker ['/'] ['/', '/']) rfl rfl ?_ content
        intro fp hfp
        have hfp2 : fp = FullPat.starts ['/', '/'] := by simpa [cLikeLineOnly] using hfp
        exact ⟨['/', '/'], '/', ['/'], hfp2, rfl, by decide⟩
      · exact absurd hnb (by simp [xmlLike])
      · exact absurd hnb (by simp [cssLike])
      · exact absurd hnb (by simp [phpLike])

/-- Witness for C1 (amended) at a concrete input: `.py` in RemoveAll mode. -/
theorem C1_idempotent_amended_witness :
    processCodeContent (processCodeContent "# only a comment\n".data ".py".data true)
        ".py".data true =
      processCodeContent "# only a comment\n".data ".py".data true :=
  C1_idempotent_amended "# only a comment\n".data ".py".data true
    (Or.inr (fun ld hld => by
      have h1 : languageMap.lookup (lowerStr ".py".data) = some pythonLike := by decide
      rw [h1] at hld
      rw [← Option.some.inj hld]
      rfl))

/-- C2: the output ends with a newline iff the input did, and the two
degenerate inputs (empty string, single newline) are returned unchanged, for
every mapped extension and both modes. -/
theorem C2_newline_fidelity (content ext : List Char) (ld : LangDef) (m : Bool)
    (h : languageMap.lookup (lowerStr ext) = some ld) :
    (endsNl (processCodeContent content ext m) = endsNl content) ∧
    (content = [] → processCodeContent content ext m = []) ∧
    (content = ['\n'] → processCodeContent content ext m = ['\n']) := by
  simp only [processCodeContent, h]
  refine ⟨?_, ?_, ?_⟩
  · cases m with
    | false => exact endsNl_rcu_inline ld content
    | true => exact rcu_ra_endsNl ld content
  · rintro rfl
    cases m with
    | false => exact rcu_inline_nil ld
    | true => exact rcu_ra_nil ld
  · rintro rfl
    cases m with
    | false => exact rcu_inline_newline ld
    | true => exact rcu_ra_newline ld

/-- Witness for C2 at concrete inputs. -/
theorem C2_newline_fidelity_witness :
    (endsNl (processCodeContent "x = 1  # note\n".data ".py".data false) =
      endsNl "x = 1  # note\n".data) ∧
    ("x = 1  # note\n".data = [] →
      processCodeContent "x = 1  # note\n".data ".py".data false = []) ∧
    ("x = 1  # note\n".data = ['\n'] →
      processCodeContent "x = 1  # note\n".data ".py".data false = ['\n']) :=
  C2_newline_fidelity "x = 1  # note\n".data ".py".data pythonLike false (by decide)

/-- C3: in InlineOnly mode, a line whose trimmed content fullmatches a
full-line comment pattern of its profile is left unchanged by the per-line
transform. -/
theorem C3_inline_only_keeps_full_line (ext : List Char) (ld : LangDef) (l : List Char)
    (h : languageMap.lookup (lowerStr ext) = some ld)
    (hfull : ld.fullLine.any (fun fp => matchFull fp (strip l)) = true) :
    procLine ld false l = l := by
  obtain ⟨hH, hG⟩ := profile_HG ld (lookup_profile h)
  rw [procLine_inline]
  exact stripInline_full_line_id ld hH hG l hfull

/-- Witness for C3: a pure comment line of the `.py` profile. -/
theorem C3_inline_only_keeps_full_line_witness :
    procLine pythonLike false "  # only a comment".data = "  # only a comment".data :=
  C3_inline_only_keeps_full_line ".py".data pythonLike "  # only a comment".data
    (by decide) (by decide)

/-- C4: RemoveAll output has no two consecutive empty lines and no leading
or trailing empty line, except when the whole output is the single-newline
output (one empty line). -/
theorem C4_blank_run_bound (content ext : List Char) (ld : LangDef)
    (h : languageMap.lookup (lowerStr ext) = some ld) :
    noAdjNil (linesOf (processCodeContent content ext true)) = true ∧
    (processCodeContent content ext true = ['\n'] ∨
      ((linesOf (processCodeContent content ext true)).head? ≠ some [] ∧
       (linesOf (processCodeContent content ext true)).getLast? ≠ some [])) := by
  simp only [processCodeContent, h]
  rw [rcu_ra_out]
  by_cases hRnil : blankCollapse ((splitNl (blockPass ld content)).map (procLine ld true)) = []
  · rw [if_pos hRnil]
    cases hc : endsNl content with
    | true =>
      constructor
      · decide
      · exact Or.inl rfl
    | false =>
      refine ⟨by decide, Or.inr ⟨by decide, by decide⟩⟩
  · rw [if_neg hRnil]
    have hhead := blankCollapse_head ((splitNl (blockPass ld content)).map (procLine ld true))
    have hlast := blankCollapse_last ((splitNl (blockPass ld content)).map (procLine ld true))
    have hnoAdj := blankCollapse_noAdj ((splitNl (blockPass ld content)).map (procLine ld true))
    have hnl := blankCollapse_map_nl_free ld true (blockPass ld content)
    cases hc : endsNl content with
    | true =>
      simp only [eq_self_iff_true, if_true]
      have hlo : linesOf (joinNl (blankCollapse
          ((splitNl (blockPass ld content)).map (procLine ld true))) ++ ['\n']) =
          blankCollapse ((splitNl (blockPass ld content)).map (procLine ld true)) := by
        rw [linesOf, if_neg (by simp), if_pos (endsNl_joinNl_concat _), List.dropLast_concat]
        exact splitNl_joinNl hnl hRnil
      rw [hlo]
      exact ⟨hnoAdj, Or.inr ⟨hhead, hlast⟩⟩
    | false =>
      have hjne : joinNl (blankCollapse
          ((splitNl (blockPass ld content)).map (procLine ld true))) ≠ [] := by
        intro hcon
        have hcon2 := (joinNl_eq_nil hRnil).mp hcon
        exact hhead (by rw [hcon2]; rfl)
      simp only [Bool.false_eq_true, if_false]
      have hlo : linesOf (joinNl (blankCollapse
          ((splitNl (blockPass ld content)).map (procLine ld true)))) =
          blankCollapse ((splitNl (blockPass ld content)).map (procLine ld true)) := by
        rw [linesOf, if_neg hjne, if_neg (by rw [rcu_ra_je ld (blockPass ld content) hRnil]; simp)]
        exact splitNl_joinNl hnl hRnil
      rw [hlo]
      exact ⟨hnoAdj, Or.inr ⟨hhead, hlast⟩⟩

/-- Witness for C4 at a concrete input. -/
theorem C4_blank_run_bound_witness :
    noAdjNil (linesOf (processCodeContent "x = 1\n\n\n\ny = 2\n".data ".py".data true)) = true ∧
    (processCodeContent "x = 1\n\n\n\ny = 2\n".data ".py".data true = ['\n'] ∨
      ((linesOf (processCodeContent "x = 1\n\n\n\ny = 2\n".data ".py".data true)).head? ≠ some [] ∧
       (linesOf (processCodeContent "x = 1\n\n\n\ny = 2\n".data ".py".data true)).getLast? ≠ some [])) :=
  C4_blank_run_bound "x = 1\n\n\n\ny = 2\n".data ".py".data pythonLike (by decide)

/-- C5 counterexample: for the input `"# only a comment\n"` of the `.py`
profile (nothing but a removed comment), the blank-line cleanup stage
produces the empty line sequence, not exactly one empty line. -/
theorem C5_counterexample :
    (∀ l ∈ (splitNl "# only a comment\n".data).map (procLine pythonLike true),
      strip l = []) ∧
    blankCollapse ((splitNl "# only a comment\n".data).map (procLine pythonLike true)) = [] ∧
    blankCollapse ((splitNl "# only a comment\n".data).map (procLine pythonLike true)) ≠ [[]] := by
  refine ⟨by decide, by decide, by decide⟩

/-- C5 (amended): the cleanup stage strips all leading and trailing empty
lines, and a line sequence that is entirely blank (a file of nothing but
removed comments) collapses to the empty sequence — zero lines, not one. -/
theorem C5_blank_stage_amended (ls : List (List Char)) :
    ((∀ l ∈ ls, strip l = []) → blankCollapse ls = []) ∧
    (blankCollapse ls).head? ≠ some [] ∧ (blankCollapse ls).getLast? ≠ some [] :=
  ⟨fun h => blankCollapse_all_nil h, blankCollapse_head ls, blankCollapse_last ls⟩

/-- Witness for C5 (amended) at a concrete all-blank line sequence. -/
theorem C5_blank_stage_amended_witness :
    blankCollapse [[' '], []] = [] ∧
    (blankCollapse [[' '], []]).head? ≠ some [] ∧
    (blankCollapse [[' '], []]).getLast? ≠ some [] :=
  ⟨(C5_blank_stage_amended [[' '], []]).1 (by decide),
    (C5_blank_stage_amended [[' '], []]).2.1,
    (C5_blank_stage_amended [[' '], []]).2.2⟩

/-- C6: an extension absent from the table (after lower-casing) makes the
transform a byte-for-byte no-op in both modes. -/
theorem C6_unknown_ext_noop (content ext : List Char) (m : Bool)
    (h : languageMap.lookup (lowerStr ext) = none) :
    processCodeContent content ext m = content := by
  simp [processCodeContent, h]

/-- Witness for C6: the `.txt` extension is not in the table. -/
theorem C6_unknown_ext_noop_witness :
    processCodeContent "x /* y */ # z\n".data ".txt".data true = "x /* y */ # z\n".data :=
  C6_unknown_ext_noop "x /* y */ # z\n".data ".txt".data true (by decide)

/-- C7: the inline fixed-point loop terminates: the value computed with the
length-bounded fuel is a true fixed point of a full pass, and every
successful (line-changing) pattern match strictly shortens the line. -/
theorem C7_inline_loop_terminates :
    (∀ (ra : Bool) (pats : List InlinePat) (s : List Char),
        applyPats ra pats (stripInline ra pats s) = stripInline ra pats s) ∧
    (∀ (pat : InlinePat) (s code : List Char), matchInline pat s = some code →
        (rstrip code).length < s.length) := by
  constructor
  · exact stripInline_fix
  · intro pat s code hm
    exact lt_of_le_of_lt (preLen (rstripPre code)) (matchInline_code_lt hm)

/-- Witness for C7 at a concrete line and pattern. -/
theorem C7_inline_loop_terminates_witness :
    applyPats false [InlinePat.marker ['#'] ['#']]
        (stripInline false [InlinePat.marker ['#'] ['#']] "x = 1  # note".data) =
      stripInline false [InlinePat.marker ['#'] ['#']] "x = 1  # note".data ∧
    (rstrip "x = 1 ".data).length < "x = 1  # note".data.length :=
  ⟨C7_inline_loop_terminates.1 false [InlinePat.marker ['#'] ['#']] "x = 1  # note".data,
    C7_inline_loop_terminates.2 (InlinePat.marker ['#'] ['#']) "x = 1  # note".data
      "x = 1 ".data (by decide)⟩

/-- C8: the concrete `.c` RemoveAll scenario: the two-line block comment is
removed by the single pre-split block pass, and the final output equals the
block-pass result. -/
theorem C8_c_block_scenario :
    removeBlocks ['/', '*'] ['*', '/'] "int x = 1; /* hi\nthere */\nint y;\n".data =
      "int x = 1; \nint y;\n".data ∧
    processCodeContent "int x = 1; /* hi\nthere */\nint y;\n".data ".c".data true =
      "int x = 1; \nint y;\n".data := by
  refine ⟨by decide, by decide⟩

/-- C9: in InlineOnly mode the output has exactly as many lines as the
input, and the trailing-newline status is unchanged. -/
theorem C9_inline_line_count (content ext : List Char) (ld : LangDef)
    (h : languageMap.lookup (lowerStr ext) = some ld) :
    (splitNl (processCodeContent content ext false)).length = (splitNl content).length ∧
    endsNl (processCodeContent content ext false) = endsNl content := by
  simp only [processCodeContent, h]
  constructor
  · rw [rcu_inline_split]
    exact List.length_map _ _
  · exact endsNl_rcu_inline ld content

/-- Witness for C9 at a concrete input. -/
theorem C9_inline_line_count_witness :
    (splitNl (processCodeContent "x = 1  # note\ny = 2\n".data ".py".data false)).length =
      (splitNl "x = 1  # note\ny = 2\n".data).length ∧
    endsNl (processCodeContent "x = 1  # note\ny = 2\n".data ".py".data false) =
      endsNl "x = 1  # note\ny = 2\n".data :=
  C9_inline_line_count "x = 1  # note\ny = 2\n".data ".py".data pythonLike (by decide)

/-- C10: in InlineOnly mode every output line is a prefix of the
corresponding input line. -/
theorem C10_inline_lines_are_prefixes (content ext : List Char) (ld : LangDef)
    (h : languageMap.lookup (lowerStr ext) = some ld) :
    List.Forall₂ (fun a b => a <+: b)
      (splitNl (processCodeContent content ext false)) (splitNl content) := by
  simp only [processCodeContent, h]
  rw [rcu_inline_split]
  have hgen : ∀ L : List (List Char),
      List.Forall₂ (fun a b => a <+: b) (L.map (stripInline false ld.inline)) L := by
    intro L
    induction L with
    | nil => exact List.Forall₂.nil
    | cons x t ih => exact List.Forall₂.cons (stripInline_pre false ld.inline x) ih
  exact hgen (splitNl content)

/-- Witness for C10 at a concrete input. -/
theorem C10_inline_lines_are_prefixes_witness :
    List.Forall₂ (fun a b => a <+: b)
      (splitNl (processCodeContent "x = 1  # note\ny = 2\n".data ".py".data false))
      (splitNl "x = 1  # note\ny = 2\n".data) :=
  C10_inline_lines_are_prefixes "x = 1  # note\ny = 2\n".data ".py".data pythonLike (by decide)

end CleanComment
